import Mathlib

/-!
Verification of the mikrotik-dns-sync reconciliation engine.

Shallow embedding of the repository's core (entry model, device snapshots,
strategy engine) from `src/dns_entry.py`, `src/mikrotik.py` and
`src/strategy.py`.  Strings are embedded as `List Char`; Python sets of
entries are embedded as duplicate-free (by entry equality) lists with
insertion order; the mutable device collection of a strategy run is an
explicit `List DnsDevice` threaded through the loops as folds.
-/

set_option maxRecDepth 40000

namespace MikrotikDnsSync

/-- One static DNS record (`DnsEntry` in `src/dns_entry.py`).  The Python
object keeps `_keys = ["address", "name", "regexp", "disabled"]` and a dict
`_body` whose domain is always a subset of `_keys` (only `init_from_line`
writes to it, filtering on `_keys`), so the body is embedded as one optional
value per canonical key, in canonical order. -/
structure DnsEntry where
  address : Option (List Char)
  name : Option (List Char)
  regexp : Option (List Char)
  disabled : Option (List Char)
deriving DecidableEq, Repr

/-- The canonical key strings, in the order of `_keys`. -/
def addressKey : List Char := ['a', 'd', 'd', 'r', 'e', 's', 's']

def nameKey : List Char := ['n', 'a', 'm', 'e']

def regexpKey : List Char := ['r', 'e', 'g', 'e', 'x', 'p']

def disabledKey : List Char := ['d', 'i', 's', 'a', 'b', 'l', 'e', 'd']

def emptyEntry : DnsEntry := ⟨none, none, none, none⟩

/-- Per-key comparison done by `DnsEntry.__eq__`: a key absent from one body
but present in the other makes the entries unequal; present in both
requires identical values. -/
def optEq : Option (List Char) → Option (List Char) → Bool
  | none, none => true
  | some a, some b => decide (a = b)
  | _, _ => false

/-- `DnsEntry.__eq__` (src/dns_entry.py:9-18): the loop over `_keys`,
unrolled over the four canonical keys. -/
def eqEntry (a b : DnsEntry) : Bool :=
  optEq a.address b.address && optEq a.name b.name &&
    optEq a.regexp b.regexp && optEq a.disabled b.disabled

/-- Membership test of a Python `set` of entries (`in` / `not in`), which is
decided by `__eq__` (equal entries always share the `__hash__` bucket). -/
def memEntry (e : DnsEntry) (l : List DnsEntry) : Bool :=
  l.any (fun x => eqEntry x e)

/-- The concatenated `f"{key}{value}"` contribution of one key to the hash
string of `DnsEntry.__hash__`. -/
def hashField (k : List Char) : Option (List Char) → List Char
  | none => []
  | some v => k ++ v

/-- The string `full_temp` built by `DnsEntry.__hash__`
(src/dns_entry.py:20-26): `key ++ value` for every present key, in
canonical key order. -/
def hashString (e : DnsEntry) : List Char :=
  hashField addressKey e.address ++ (hashField nameKey e.name ++
    (hashField regexpKey e.regexp ++ hashField disabledKey e.disabled))

/-- One bit-step of the reflected CRC-32 used by `binascii.crc32`. -/
def crc32Step (c : Nat) : Nat :=
  if c % 2 = 1 then (c / 2) ^^^ 0xEDB88320 else c / 2

def crc32StepN : Nat → Nat → Nat
  | 0, c => c
  | n + 1, c => crc32StepN n (crc32Step c)

/-- Folding one byte into the CRC-32 state. -/
def crc32Byte (c b : Nat) : Nat := crc32StepN 8 (c ^^^ b)

/-- `binascii.crc32` over a byte string (initial value 0, i.e. internal
state `0xFFFFFFFF`, final xor `0xFFFFFFFF`). -/
def crc32 (bs : List Nat) : Nat :=
  (bs.foldl crc32Byte 0xFFFFFFFF) ^^^ 0xFFFFFFFF

/-- UTF-8 encoding of one character, as used by `str.encode("utf-8")`. -/
def utf8Char (c : Char) : List Nat :=
  let n := c.toNat
  if n < 0x80 then [n]
  else if n < 0x800 then [0xC0 ||| (n >>> 6), 0x80 ||| (n &&& 0x3F)]
  else if n < 0x10000 then
    [0xE0 ||| (n >>> 12), 0x80 ||| ((n >>> 6) &&& 0x3F), 0x80 ||| (n &&& 0x3F)]
  else
    [0xF0 ||| (n >>> 18), 0x80 ||| ((n >>> 12) &&& 0x3F),
      0x80 ||| ((n >>> 6) &&& 0x3F), 0x80 ||| (n &&& 0x3F)]

def utf8 (s : List Char) : List Nat := (s.map utf8Char).flatten

/-- `DnsEntry.__hash__` (src/dns_entry.py:20-26): CRC-32 of the UTF-8
encoding of the concatenated `key ++ value` string.  This is the entry's
structural fingerprint. -/
def fingerprint (e : DnsEntry) : Nat := crc32 (utf8 (hashString e))

/-- Python's `str.split(sep)` with a one-character separator: splits at every
occurrence, keeping empty pieces (`"".split(" ") == [""]`). -/
def splitOnChar (c : Char) : List Char → List (List Char)
  | [] => [[]]
  | x :: xs =>
    if x = c then [] :: splitOnChar c xs
    else
      match splitOnChar c xs with
      | [] => [[x]]
      | p :: ps => (x :: p) :: ps

/-- The inner key loop of `DnsEntry.init_from_line` (src/dns_entry.py:36-39):
store `v` under the first canonical key matching `k` (if any). -/
def setField (e : DnsEntry) (k v : List Char) : DnsEntry :=
  if k = addressKey then { e with address := some v }
  else if k = nameKey then { e with name := some v }
  else if k = regexpKey then { e with regexp := some v }
  else if k = disabledKey then { e with disabled := some v }
  else e

/-- One iteration of the token loop of `DnsEntry.init_from_line`
(src/dns_entry.py:31-39): tokens without `=` are skipped, otherwise
`kv = part.split("=")` and the field named `kv[0]` is set to `kv[1]`. -/
def parsePart (e : DnsEntry) (part : List Char) : DnsEntry :=
  if '=' ∈ part then
    match splitOnChar '=' part with
    | k :: v :: _ => setField e k v
    | _ => e
  else e

/-- `DnsEntry.init_from_line` (src/dns_entry.py:28-39) applied to a freshly
constructed entry: split the line on spaces and fold the token loop. -/
def init_from_line (line : List Char) : DnsEntry :=
  (splitOnChar ' ' line).foldl parsePart emptyEntry

/-- The rendering of one present field by `DnsEntry.to_command`:
`f"{key}={value} "`. -/
def renderField (k : List Char) : Option (List Char) → List Char
  | none => []
  | some v => k ++ '=' :: (v ++ [' '])

/-- `DnsEntry.to_command` (src/dns_entry.py:41-47): concatenate
`key=value ` for every present key in canonical order. -/
def to_command (e : DnsEntry) : List Char :=
  renderField addressKey e.address ++ (renderField nameKey e.name ++
    (renderField regexpKey e.regexp ++ renderField disabledKey e.disabled))

/-- A value string that can sit inside a rendered `key=value ` token without
confusing the parser: free of the two separator characters. -/
def goodVal (v : List Char) : Prop := ' ' ∉ v ∧ '=' ∉ v

def goodOpt : Option (List Char) → Prop
  | none => True
  | some v => goodVal v

/-- Every stored field value is separator-free.  This invariant holds for
every entry produced by `init_from_line`, because values are pieces of a
space-split followed by an equals-split. -/
def GoodEntry (e : DnsEntry) : Prop :=
  goodOpt e.address ∧ goodOpt e.name ∧ goodOpt e.regexp ∧ goodOpt e.disabled

/-- The tokens contributed by one optional field to the space-split of a
rendered command. -/
def optTokens (k : List Char) : Option (List Char) → List (List Char)
  | none => []
  | some v => [k ++ '=' :: v]

/-- The effect of one optional field's tokens on the parse fold. -/
def applyOpt (k : List Char) (o : Option (List Char)) (e : DnsEntry) :
    DnsEntry :=
  match o with
  | none => e
  | some v => setField e k v

/-- A device snapshot (`DnsDevice` in src/mikrotik.py:125-159): the device's
host identifier (the only attribute of the transport object the engine
reads), the master role flag, the entry set fetched at snapshot time and the
mutable pending-update set.  Both sets are Python sets of entries, embedded
as insertion-ordered lists deduplicated by entry equality. -/
structure DnsDevice where
  host : String
  master : Bool
  dns_static : List DnsEntry
  pending_updates : List DnsEntry
deriving DecidableEq, Repr

def defaultDev : DnsDevice :=
  { host := "", master := false, dns_static := [], pending_updates := [] }

/-- Indexing into the device list (Python iterates over object references;
positions stand for object identity). -/
def devAt (s : List DnsDevice) (i : Nat) : DnsDevice := s.getD i defaultDev

/-- `DnsDevice.append_pending_updates` (src/mikrotik.py:142-143):
`set.add`, a no-op when an equal entry is already pending. -/
def append_pending_updates (d : DnsDevice) (e : DnsEntry) : DnsDevice :=
  if memEntry e d.pending_updates then d
  else { d with pending_updates := d.pending_updates ++ [e] }

/-- `DnsDevice.update_pending_updates` (src/mikrotik.py:145-146):
`set.update`, bulk idempotent insert. -/
def update_pending_updates (d : DnsDevice) (diff : List DnsEntry) :
    DnsDevice :=
  diff.foldl append_pending_updates d

/-- Python `set.difference` under entry equality: the members of `a` without
an equal member in `b`. -/
def difference (a b : List DnsEntry) : List DnsEntry :=
  a.filter (fun e => !(memEntry e b))

/-- The two failure modes of `find_master` (src/strategy.py:30-39): the
`Cannot have several masters` and `Cannot find master router` exceptions. -/
inductive SyncError where
  | multipleMasters
  | noMaster
deriving DecidableEq, Repr

/-- The loop of `find_master` (src/strategy.py:30-39) with its running
`master` accumulator: raises `multipleMasters` as soon as a second
master-flagged device is seen, `noMaster` when the loop ends without one. -/
def findMasterAux : Option DnsDevice → List DnsDevice →
    Except SyncError DnsDevice
  | some m, [] => .ok m
  | none, [] => .error .noMaster
  | acc, d :: rest =>
    if d.master then
      match acc with
      | some _ => .error .multipleMasters
      | none => findMasterAux (some d) rest
    else findMasterAux acc rest

def findMaster (devs : List DnsDevice) : Except SyncError DnsDevice :=
  findMasterAux none devs

/-- `MasterPropagationOnlyNew.analyze` (src/strategy.py:51-61).  The
exception from `find_master` propagates before any device is touched, so
the error case returns the snapshots unchanged; otherwise every non-master
device's pending set is extended with `master.dns_static().difference(
d.dns_static())`. -/
def analyzeMasterPropagationOnlyNew (devs : List DnsDevice) :
    Option SyncError × List DnsDevice :=
  match findMaster devs with
  | .error e => (some e, devs)
  | .ok m =>
    (none, devs.map (fun d =>
      if d.master then d
      else update_pending_updates d (difference m.dns_static d.dns_static)))

/-- `MasterFullMirror.analyze` (src/strategy.py:73-83).  Its body is
line-for-line identical to `MasterPropagationOnlyNew.analyze`: it only
computes the master-minus-slave difference and schedules additions; no
removal set is ever computed or scheduled. -/
def analyzeMasterFullMirror (devs : List DnsDevice) :
    Option SyncError × List DnsDevice :=
  match findMaster devs with
  | .error e => (some e, devs)
  | .ok m =>
    (none, devs.map (fun d =>
      if d.master then d
      else update_pending_updates d (difference m.dns_static d.dns_static)))

/-- One iteration of the inner loop of `Exchange.analyze`
(src/strategy.py:97-109) for the pair of positions `(i, j)`: skip when the
hosts coincide, otherwise push `first - second` onto `j`'s pending set and
then `second - first` onto `i`'s (re-reading the devices after the first
update, as the source does). -/
def exchangePair (s : List DnsDevice) (i j : Nat) : List DnsDevice :=
  if (devAt s i).host = (devAt s j).host then s
  else
    let s1 := s.set j (update_pending_updates (devAt s j)
      (difference (devAt s i).dns_static (devAt s j).dns_static))
    s1.set i (update_pending_updates (devAt s1 i)
      (difference (devAt s1 j).dns_static (devAt s1 i).dns_static))

/-- `Exchange.analyze` (src/strategy.py:97-109): the two nested loops over
the (unchanging) device list. -/
def exchangeAnalyze (devs : List DnsDevice) : List DnsDevice :=
  (List.range devs.length).foldl
    (fun s i => (List.range devs.length).foldl
      (fun t j => exchangePair t i j) s) devs

/-- `VotedEntry` (src/strategy.py:112-131). -/
structure VotedEntry where
  entry : DnsEntry
  total_voters : Nat
  votes : Nat
deriving DecidableEq, Repr

/-- `VotedEntry.vote` (src/strategy.py:121-122). -/
def vote (v : VotedEntry) : VotedEntry := { v with votes := v.votes + 1 }

/-- Python's `round(x, 2)` modelled exactly on rationals: round `x` to the
nearest multiple of 1/100 (Python rounds binary floats half-to-even; the
tie-breaking direction is immaterial to every property proved below). -/
def roundTo2 (q : ℚ) : ℚ := ((round (q * 100) : ℤ) : ℚ) / 100

/-- `VotedEntry.get_percent` (src/strategy.py:127-128):
`round(votes * 100 / total_voters, 2)`. -/
def get_percent (v : VotedEntry) : ℚ :=
  roundTo2 ((v.votes * 100 : ℚ) / (v.total_voters : ℚ))

/-- Key lookup in the `voted_entries` dict, which is keyed by the integer
`__hash__` of the record. -/
def containsKey (t : List (Nat × VotedEntry)) (k : Nat) : Bool :=
  t.any (fun kv => decide (kv.1 = k))

/-- `voted_entries[key].vote()`: bump the vote count stored under `k`
(dict keys are unique, so at most one pair matches). -/
def voteKey (t : List (Nat × VotedEntry)) (k : Nat) :
    List (Nat × VotedEntry) :=
  t.map (fun kv => if kv.1 = k then (kv.1, vote kv.2) else kv)

/-- The body of the record loop in `Authoritative._collect_votes`
(src/strategy.py:147-153): vote if the record's hash is already a key,
otherwise insert a fresh `VotedEntry(record, total_voters)` (insertion
order preserved, as for a Python dict). -/
def processRecord (total : Nat) (t : List (Nat × VotedEntry))
    (rec : DnsEntry) : List (Nat × VotedEntry) :=
  if containsKey t (fingerprint rec) then voteKey t (fingerprint rec)
  else t ++ [(fingerprint rec, ⟨rec, total, 1⟩)]

/-- `Authoritative._collect_votes` (src/strategy.py:143-154). -/
def collectVotes (devs : List DnsDevice) : List (Nat × VotedEntry) :=
  devs.foldl (fun t d => d.dns_static.foldl (processRecord devs.length) t) []

/-- The device loop of `Authoritative.analyze` (src/strategy.py:166-168)
for one approved entry: append it to the pending set of every device whose
entry set lacks an equal entry. -/
def markEntry (e : DnsEntry) (s : List DnsDevice) : List DnsDevice :=
  (List.range s.length).foldl
    (fun s2 i =>
      if memEntry e (devAt s2 i).dns_static then s2
      else s2.set i (append_pending_updates (devAt s2 i) e)) s

/-- One iteration of the key loop of `Authoritative.analyze`
(src/strategy.py:158-169): percent == 100 is skipped; percent >= 50 marks
the entry on every device lacking it; below 50 only logs a decline. -/
def processVoted (s : List DnsDevice) (kv : Nat × VotedEntry) :
    List DnsDevice :=
  if get_percent kv.2 = 100 then s
  else if 50 ≤ get_percent kv.2 then markEntry kv.2.entry s
  else s

/-- `Authoritative.analyze` (src/strategy.py:156-169). -/
def authAnalyze (devs : List DnsDevice) : List DnsDevice :=
  (collectVotes devs).foldl processVoted devs

/-- `Mikrotik.add_missing_entries` (src/mikrotik.py:109-114): one add
command per entry of the pending set, in iteration order.  A command is
recorded as the pair (host, entry). -/
def add_missing_entries (host : String) (entries : List DnsEntry) :
    List (String × DnsEntry) :=
  entries.map (fun e => (host, e))

/-- `Strategy.apply` (src/strategy.py:20-27): for every device, push its
pending entries through the transport.  The method reads
`get_pending_updates()` and never writes any snapshot attribute, so the
device state it leaves behind is the input state, returned unchanged in the
second component. -/
def applyAll (devs : List DnsDevice) :
    List (String × DnsEntry) × List DnsDevice :=
  (devs.foldl (fun tr d => tr ++ add_missing_entries d.host d.pending_updates)
    [], devs)

def countMasters (devs : List DnsDevice) : Nat :=
  (devs.filter (fun d => d.master)).length

/-- The analysis-invariant part of a snapshot: everything except the
pending set. -/
def frameOf (d : DnsDevice) : String × Bool × List DnsEntry :=
  (d.host, d.master, d.dns_static)

def framesOf (s : List DnsDevice) : List (String × Bool × List DnsEntry) :=
  s.map frameOf

def allEntries (devs : List DnsDevice) : List DnsEntry :=
  (devs.map (fun d => d.dns_static)).flatten

/-- The number of devices whose entry set contains an entry equal to `e`. -/
def countDevs (devs : List DnsDevice) (e : DnsEntry) : Nat :=
  (devs.filter (fun d => memEntry e d.dns_static)).length

/-- Concrete entries and snapshots for evaluating the theorems below on the
worked examples of the specification. -/
def entA : DnsEntry := ⟨none, some ['a'], none, none⟩

def entB : DnsEntry := ⟨none, some ['b'], none, none⟩

def hostOne : String := "r1"

def hostTwo : String := "r2"

def hostThree : String := "r3"

/-- Master holding {A, B}, slave holding {A}: the Propagate-Only-New worked
example. -/
def devsOnlyNewExample : List DnsDevice :=
  [⟨hostOne, true, [entA, entB], []⟩, ⟨hostTwo, false, [entA], []⟩]

/-- Master holding {A}, slave holding {A, B}: the mirror example in which
the slave holds an extra entry that a full mirror would have to remove. -/
def devsMirrorExample : List DnsDevice :=
  [⟨hostOne, true, [entA], []⟩, ⟨hostTwo, false, [entA, entB], []⟩]

/-- Three devices: device1 = {A}, device2 = {B}, device3 = {}: the Exchange
worked example. -/
def devsExchangeExample : List DnsDevice :=
  [⟨hostOne, false, [entA], []⟩, ⟨hostTwo, false, [entB], []⟩,
    ⟨hostThree, false, [], []⟩]

/-- Two devices with entry A held by exactly one of them: approval is
exactly 50%. -/
def devsAuthHalf : List DnsDevice :=
  [⟨hostOne, false, [entA], []⟩, ⟨hostTwo, false, [], []⟩]

/-- Entry with body {address: "1name2"}. -/
def entAmbig1 : DnsEntry := ⟨some (['1'] ++ nameKey ++ ['2']), none, none, none⟩

/-- Entry with body {address: "1", name: "2"}: a different entry whose hash
string "address1name2" — and hence whose fingerprint — coincides with that
of `entAmbig1`. -/
def entAmbig2 : DnsEntry := ⟨some ['1'], some ['2'], none, none⟩

/-- One device whose (deduplicated) entry set holds both colliding
entries. -/
def devCollision : DnsDevice := ⟨hostOne, false, [entAmbig1, entAmbig2], []⟩

/-- Three devices with entry A held by two of them: approval 66.67%. -/
def devsAuthTwoThirds : List DnsDevice :=
  [⟨hostOne, false, [entA], []⟩, ⟨hostTwo, false, [entA], []⟩,
    ⟨hostThree, false, [], []⟩]

/-- Two snapshots both flagged master. -/
def devsTwoMasters : List DnsDevice :=
  [⟨hostOne, true, [entA], []⟩, ⟨hostTwo, true, [entB], []⟩]

/-- The tally of one device's record list, described explicitly: every
existing pair is bumped once when the device holds an equal entry, and a
fresh pair is appended for every record whose fingerprint was not yet a
key.  (Specification-side helper used to reason about `_collect_votes`.) -/
def bumpTally (t : List (Nat × VotedEntry)) (R : List DnsEntry) :
    List (Nat × VotedEntry) :=
  t.map (fun kv => if kv.2.entry ∈ R then (kv.1, vote kv.2) else kv)

def newsTally (total : Nat) (t : List (Nat × VotedEntry))
    (R : List DnsEntry) : List (Nat × VotedEntry) :=
  (R.filter (fun r => !(containsKey t (fingerprint r)))).map
    (fun r => (fingerprint r, ⟨r, total, 1⟩))

/-- Well-formedness of the `voted_entries` dict: every key is the
fingerprint of the stored entry, and keys are unique (dict semantics). -/
def TallyWF (t : List (Nat × VotedEntry)) : Prop :=
  (∀ kv ∈ t, kv.1 = fingerprint kv.2.entry) ∧
  (∀ kv1 ∈ t, ∀ kv2 ∈ t, kv1.1 = kv2.1 → kv1 = kv2)

/-- No two distinct entries of `S` share a CRC-32 fingerprint. -/
def CollisionFree (S : List DnsEntry) : Prop :=
  ∀ e1 ∈ S, ∀ e2 ∈ S, fingerprint e1 = fingerprint e2 → e1 = e2

/-! ### Theorems -/

theorem optEq_iff (a b : Option (List Char)) : optEq a b = true ↔ a = b := by
  cases a <;> cases b <;> simp [optEq]

theorem eqEntry_iff (a b : DnsEntry) : eqEntry a b = true ↔ a = b := by
  cases a; cases b
  simp [eqEntry, optEq_iff, DnsEntry.mk.injEq, and_assoc]

theorem memEntry_iff (e : DnsEntry) (l : List DnsEntry) :
    memEntry e l = true ↔ e ∈ l := by
  simp [memEntry, eqEntry_iff]

theorem memEntry_eq_false (e : DnsEntry) (l : List DnsEntry) :
    memEntry e l = false ↔ e ∉ l := by
  rw [← memEntry_iff]
  cases memEntry e l <;> simp

theorem fingerprint_congr {a b : DnsEntry} (h : a = b) :
    fingerprint a = fingerprint b := by rw [h]

theorem splitOnChar_ne_nil (c : Char) (l : List Char) :
    splitOnChar c l ≠ [] := by
  induction l with
  | nil => simp [splitOnChar]
  | cons x xs ih =>
    simp only [splitOnChar]
    split
    · simp
    · split
      · simp
      · simp

/-- Every piece produced by `splitOnChar c` is free of the separator. -/
theorem splitOnChar_not_mem {c : Char} {l : List Char} {p : List Char}
    (hp : p ∈ splitOnChar c l) : c ∉ p := by
  induction l generalizing p with
  | nil => simp [splitOnChar] at hp; simp [hp]
  | cons x xs ih =>
    by_cases hx : x = c
    · simp [splitOnChar, hx] at hp
      rcases hp with rfl | hp
      · simp
      · exact ih hp
    · simp only [splitOnChar, if_neg hx] at hp
      rcases h : splitOnChar c xs with _ | ⟨q, qs⟩
      · exact absurd h (splitOnChar_ne_nil c xs)
      · rw [h] at hp
        rcases List.mem_cons.mp hp with rfl | hp
        · intro hmem
          rcases List.mem_cons.mp hmem with rfl | hmem
          · exact hx rfl
          · exact ih (by rw [h]; exact List.mem_cons_self q qs) hmem
        · exact ih (by rw [h]; exact List.mem_cons_of_mem q hp)

/-- Every character of every piece comes from the split string. -/
theorem splitOnChar_subset {c : Char} {l p : List Char}
    (hp : p ∈ splitOnChar c l) : ∀ x ∈ p, x ∈ l := by
  induction l generalizing p with
  | nil => simp [splitOnChar] at hp; simp [hp]
  | cons y ys ih =>
    intro x hx
    by_cases hy : y = c
    · simp [splitOnChar, hy] at hp
      rcases hp with rfl | hp
      · simp at hx
      · exact List.mem_cons_of_mem y (ih hp x hx)
    · simp only [splitOnChar, if_neg hy] at hp
      rcases h : splitOnChar c ys with _ | ⟨q, qs⟩
      · exact absurd h (splitOnChar_ne_nil c ys)
      · rw [h] at hp
        rcases List.mem_cons.mp hp with rfl | hp
        · rcases List.mem_cons.mp hx with rfl | hx
          · exact List.mem_cons_self _ _
          · exact List.mem_cons_of_mem y
              (ih (by rw [h]; exact List.mem_cons_self q qs) x hx)
        · exact List.mem_cons_of_mem y
            (ih (by rw [h]; exact List.mem_cons_of_mem q hp) x hx)

/-- Splitting a string that starts with a separator-free block `a` followed
by the separator peels off `a` as the first piece. -/
theorem splitOnChar_block {c : Char} {a : List Char} (ha : c ∉ a)
    (rest : List Char) :
    splitOnChar c (a ++ c :: rest) = a :: splitOnChar c rest := by
  induction a with
  | nil => simp [splitOnChar]
  | cons x a' ih =>
    have hx : x ≠ c := by intro h; exact ha (by simp [h])
    have ha' : c ∉ a' := by intro h; exact ha (List.mem_cons_of_mem x h)
    simp only [List.cons_append, splitOnChar, if_neg hx]
    rw [List.append_eq, ih ha']

/-- Splitting a separator-free string yields that string as the only piece. -/
theorem splitOnChar_all {c : Char} {v : List Char} (hv : c ∉ v) :
    splitOnChar c v = [v] := by
  induction v with
  | nil => simp [splitOnChar]
  | cons x v' ih =>
    have hx : x ≠ c := by intro h; exact hv (by simp [h])
    have hv' : c ∉ v' := by intro h; exact hv (List.mem_cons_of_mem x h)
    simp only [splitOnChar, if_neg hx, ih hv']

theorem setField_addr (e : DnsEntry) (v : List Char) :
    setField e addressKey v = { e with address := some v } := by
  rw [setField, if_pos rfl]

theorem setField_name (e : DnsEntry) (v : List Char) :
    setField e nameKey v = { e with name := some v } := by
  rw [setField, if_neg (by decide), if_pos rfl]

theorem setField_regexp (e : DnsEntry) (v : List Char) :
    setField e regexpKey v = { e with regexp := some v } := by
  rw [setField, if_neg (by decide), if_neg (by decide), if_pos rfl]

theorem setField_disabled (e : DnsEntry) (v : List Char) :
    setField e disabledKey v = { e with disabled := some v } := by
  rw [setField, if_neg (by decide), if_neg (by decide), if_neg (by decide),
    if_pos rfl]

theorem setField_good {e : DnsEntry} {v : List Char} (he : GoodEntry e)
    (hv : goodVal v) (k : List Char) : GoodEntry (setField e k v) := by
  obtain ⟨h1, h2, h3, h4⟩ := he
  rw [setField]
  split
  · exact ⟨hv, h2, h3, h4⟩
  · split
    · exact ⟨h1, hv, h3, h4⟩
    · split
      · exact ⟨h1, h2, hv, h4⟩
      · split
        · exact ⟨h1, h2, h3, hv⟩
        · exact ⟨h1, h2, h3, h4⟩

theorem parsePart_nil (e : DnsEntry) : parsePart e [] = e := by
  simp [parsePart]

theorem parsePart_good {e : DnsEntry} {part : List Char} (he : GoodEntry e)
    (hpart : ' ' ∉ part) : GoodEntry (parsePart e part) := by
  rw [parsePart]
  split
  · rcases h : splitOnChar '=' part with _ | ⟨k, _ | ⟨v, rest⟩⟩
    · exact he
    · exact he
    · refine setField_good he ⟨?_, ?_⟩ k
      · intro hmem
        exact hpart (splitOnChar_subset
          (by rw [h]; exact List.mem_cons_of_mem k (List.mem_cons_self v rest))
          ' ' hmem)
      · exact splitOnChar_not_mem
          (by rw [h]; exact List.mem_cons_of_mem k (List.mem_cons_self v rest))
  · exact he

theorem foldl_parsePart_good {parts : List (List Char)}
    (hparts : ∀ p ∈ parts, ' ' ∉ p) {e : DnsEntry} (he : GoodEntry e) :
    GoodEntry (parts.foldl parsePart e) := by
  induction parts generalizing e with
  | nil => exact he
  | cons p ps ih =>
    exact ih (fun q hq => hparts q (List.mem_cons_of_mem p hq))
      (parsePart_good he (hparts p (List.mem_cons_self p ps)))

theorem init_from_line_good (line : List Char) :
    GoodEntry (init_from_line line) :=
  foldl_parsePart_good (fun _ hp => splitOnChar_not_mem hp)
    ⟨trivial, trivial, trivial, trivial⟩

/-- Parsing one rendered token `key=value` sets exactly that field. -/
theorem parsePart_token {k v : List Char} (hk : '=' ∉ k) (hv : '=' ∉ v)
    (e : DnsEntry) : parsePart e (k ++ '=' :: v) = setField e k v := by
  rw [parsePart, if_pos (by simp), splitOnChar_block hk, splitOnChar_all hv]

theorem splitSpace_renderField {k : List Char} {o : Option (List Char)}
    (hk : ' ' ∉ k) (ho : goodOpt o) (rest : List Char) :
    splitOnChar ' ' (renderField k o ++ rest) =
      optTokens k o ++ splitOnChar ' ' rest := by
  cases o with
  | none => simp [renderField, optTokens]
  | some v =>
    have hblock : ' ' ∉ k ++ '=' :: v := by
      simp only [List.mem_append, List.mem_cons]
      push_neg
      exact ⟨hk, by decide, ho.1⟩
    have h := splitOnChar_block hblock rest
    rw [show renderField k (some v) ++ rest = (k ++ '=' :: v) ++ ' ' :: rest by
      simp [renderField]]
    rw [h]
    rfl

theorem foldl_optTokens {k : List Char} {o : Option (List Char)}
    (hk : '=' ∉ k) (ho : goodOpt o) (rest : List (List Char)) (e : DnsEntry) :
    (optTokens k o ++ rest).foldl parsePart e =
      rest.foldl parsePart (applyOpt k o e) := by
  cases o with
  | none => rfl
  | some v =>
    simp only [optTokens, List.cons_append, List.nil_append, List.foldl_cons]
    rw [parsePart_token hk ho.2 e]
    rfl

theorem applyOpt_chain (e : DnsEntry) :
    applyOpt disabledKey e.disabled (applyOpt regexpKey e.regexp
      (applyOpt nameKey e.name (applyOpt addressKey e.address emptyEntry)))
      = e := by
  obtain ⟨a, n, r, d⟩ := e
  cases a <;> cases n <;> cases r <;> cases d <;>
    simp [applyOpt, setField_addr, setField_name, setField_regexp,
      setField_disabled, emptyEntry]

/-- Re-parsing a rendered separator-clean entry recovers it exactly. -/
theorem roundtrip_good {e : DnsEntry} (he : GoodEntry e) :
    init_from_line (to_command e) = e := by
  obtain ⟨h1, h2, h3, h4⟩ := he
  have hsplit : splitOnChar ' ' (to_command e) =
      optTokens addressKey e.address ++ (optTokens nameKey e.name ++
        (optTokens regexpKey e.regexp ++
          (optTokens disabledKey e.disabled ++ [[]]))) := by
    rw [show to_command e = renderField addressKey e.address ++
        (renderField nameKey e.name ++ (renderField regexpKey e.regexp ++
          (renderField disabledKey e.disabled ++ []))) by
      simp [to_command]]
    rw [splitSpace_renderField (by decide) h1,
      splitSpace_renderField (by decide) h2,
      splitSpace_renderField (by decide) h3,
      splitSpace_renderField (by decide) h4]
    rfl
  rw [init_from_line, hsplit,
    foldl_optTokens (by decide) h1,
    foldl_optTokens (by decide) h2,
    foldl_optTokens (by decide) h3,
    foldl_optTokens (by decide) h4]
  simp only [List.foldl_cons, List.foldl_nil, parsePart_nil]
  exact applyOpt_chain e

theorem frameOf_append_pending (d : DnsDevice) (e : DnsEntry) :
    frameOf (append_pending_updates d e) = frameOf d := by
  rw [append_pending_updates]
  split <;> rfl

theorem frameOf_foldl_append (xs : List DnsEntry) (d : DnsDevice) :
    frameOf (xs.foldl append_pending_updates d) = frameOf d := by
  induction xs generalizing d with
  | nil => rfl
  | cons x xs ih => rw [List.foldl_cons, ih, frameOf_append_pending]

theorem frameOf_update_pending (d : DnsDevice) (xs : List DnsEntry) :
    frameOf (update_pending_updates d xs) = frameOf d :=
  frameOf_foldl_append xs d

theorem frame_fields {a b : DnsDevice} (h : frameOf a = frameOf b) :
    a.host = b.host ∧ a.master = b.master ∧ a.dns_static = b.dns_static := by
  rw [frameOf, frameOf, Prod.mk.injEq, Prod.mk.injEq] at h
  exact ⟨h.1, h.2.1, h.2.2⟩

theorem mem_append_pending (d : DnsDevice) (e x : DnsEntry) :
    x ∈ (append_pending_updates d e).pending_updates ↔
      x ∈ d.pending_updates ∨ x = e := by
  by_cases h : memEntry e d.pending_updates = true
  · rw [append_pending_updates, if_pos h]
    rw [memEntry_iff] at h
    constructor
    · exact fun hx => Or.inl hx
    · rintro (hx | rfl)
      · exact hx
      · exact h
  · rw [append_pending_updates, if_neg h]
    simp

theorem mem_foldl_append (xs : List DnsEntry) (d : DnsDevice)
    (x : DnsEntry) :
    x ∈ (xs.foldl append_pending_updates d).pending_updates ↔
      x ∈ d.pending_updates ∨ x ∈ xs := by
  induction xs generalizing d with
  | nil => simp
  | cons y ys ih =>
    rw [List.foldl_cons, ih, mem_append_pending]
    simp [or_assoc, or_comm, or_left_comm]

theorem mem_update_pending (d : DnsDevice) (xs : List DnsEntry)
    (x : DnsEntry) :
    x ∈ (update_pending_updates d xs).pending_updates ↔
      x ∈ d.pending_updates ∨ x ∈ xs :=
  mem_foldl_append xs d x

theorem append_pending_of_mem {d : DnsDevice} {e : DnsEntry}
    (h : e ∈ d.pending_updates) : append_pending_updates d e = d := by
  rw [append_pending_updates, if_pos ((memEntry_iff e _).mpr h)]

theorem update_pending_of_subset {d : DnsDevice} {xs : List DnsEntry}
    (h : ∀ x ∈ xs, x ∈ d.pending_updates) :
    update_pending_updates d xs = d := by
  induction xs with
  | nil => rfl
  | cons y ys ih =>
    show (y :: ys).foldl append_pending_updates d = d
    rw [List.foldl_cons, append_pending_of_mem (h y (List.mem_cons_self y ys))]
    exact ih (fun x hx => h x (List.mem_cons_of_mem y hx))

theorem mem_difference (a b : List DnsEntry) (x : DnsEntry) :
    x ∈ difference a b ↔ x ∈ a ∧ x ∉ b := by
  simp only [difference, List.mem_filter, Bool.not_eq_true']
  rw [memEntry_eq_false]

theorem devAt_set_eq {s : List DnsDevice} {i : Nat} (d : DnsDevice)
    (h : i < s.length) : devAt (s.set i d) i = d := by
  induction s generalizing i with
  | nil => simp at h
  | cons a s ih =>
    cases i with
    | zero => rfl
    | succ i => exact ih (Nat.lt_of_succ_lt_succ h)

theorem devAt_set_ne {s : List DnsDevice} {i j : Nat} (d : DnsDevice)
    (h : i ≠ j) : devAt (s.set i d) j = devAt s j := by
  induction s generalizing i j with
  | nil => rfl
  | cons a s ih =>
    cases i with
    | zero =>
      cases j with
      | zero => exact absurd rfl h
      | succ j => rfl
    | succ i =>
      cases j with
      | zero => rfl
      | succ j => exact ih (fun hij => h (by rw [hij]))

theorem set_devAt_self (s : List DnsDevice) (i : Nat) :
    s.set i (devAt s i) = s := by
  induction s generalizing i with
  | nil => rfl
  | cons a s ih =>
    cases i with
    | zero => rfl
    | succ i =>
      show a :: s.set i (devAt s i) = a :: s
      rw [ih]

theorem framesOf_set {s : List DnsDevice} {i : Nat} {d : DnsDevice}
    (h : frameOf d = frameOf (devAt s i)) :
    framesOf (s.set i d) = framesOf s := by
  induction s generalizing i with
  | nil => rfl
  | cons a s ih =>
    cases i with
    | zero =>
      show frameOf d :: List.map frameOf s = frameOf a :: List.map frameOf s
      rw [show frameOf d = frameOf a from h]
    | succ i =>
      show frameOf a :: framesOf (s.set i d) = frameOf a :: framesOf s
      rw [ih h]

theorem framesOf_length {s t : List DnsDevice}
    (h : framesOf s = framesOf t) : s.length = t.length := by
  have := congrArg List.length h
  simpa [framesOf] using this

theorem framesOf_devAt {s t : List DnsDevice}
    (h : framesOf s = framesOf t) (k : Nat) :
    frameOf (devAt s k) = frameOf (devAt t k) := by
  induction s generalizing t k with
  | nil =>
    cases t with
    | nil => rfl
    | cons b t => simp [framesOf] at h
  | cons a s ih =>
    cases t with
    | nil => simp [framesOf] at h
    | cons b t =>
      simp only [framesOf, List.map, List.cons.injEq] at h
      cases k with
      | zero => exact h.1
      | succ k => exact ih (by simpa [framesOf] using h.2) k

theorem devAt_map (f : DnsDevice → DnsDevice) (s : List DnsDevice) :
    ∀ k, k < s.length → devAt (s.map f) k = f (devAt s k) := by
  induction s with
  | nil => intro k hk; simp at hk
  | cons a s ih =>
    intro k hk
    cases k with
    | zero => rfl
    | succ k => exact ih k (Nat.lt_of_succ_lt_succ hk)

theorem devAt_mem (s : List DnsDevice) :
    ∀ k, k < s.length → devAt s k ∈ s := by
  induction s with
  | nil => intro k hk; simp at hk
  | cons a s ih =>
    intro k hk
    cases k with
    | zero => exact List.mem_cons_self a s
    | succ k =>
      exact List.mem_cons_of_mem a (ih k (Nat.lt_of_succ_lt_succ hk))

theorem findMasterAux_some (m : DnsDevice) (l : List DnsDevice) :
    findMasterAux (some m) l =
      if l.filter (fun d => d.master) = [] then .ok m
      else .error .multipleMasters := by
  induction l with
  | nil => rfl
  | cons d rest ih =>
    by_cases hd : d.master = true
    · have hf : (d :: rest).filter (fun d => d.master) =
          d :: rest.filter (fun d => d.master) := by
        rw [List.filter_cons, if_pos (by simpa using hd)]
      rw [hf, if_neg (by simp)]
      simp [findMasterAux, hd]
    · have hf : (d :: rest).filter (fun d => d.master) =
          rest.filter (fun d => d.master) := by
        rw [List.filter_cons, if_neg (by simpa using hd)]
      rw [hf]
      simp only [findMasterAux, if_neg hd]
      exact ih

theorem findMaster_spec (devs : List DnsDevice) :
    findMaster devs =
      match devs.filter (fun d => d.master) with
      | [] => .error .noMaster
      | [m] => .ok m
      | _ => .error .multipleMasters := by
  rw [findMaster]
  induction devs with
  | nil => rfl
  | cons d rest ih =>
    by_cases hd : d.master = true
    · have hf : (d :: rest).filter (fun d => d.master) =
          d :: rest.filter (fun d => d.master) := by
        rw [List.filter_cons, if_pos (by simpa using hd)]
      rw [hf]
      simp only [findMasterAux, if_pos hd]
      rw [findMasterAux_some]
      rcases h : rest.filter (fun d => d.master) with _ | ⟨m2, rest2⟩
      · rw [h, if_pos rfl]
      · rw [h, if_neg (by simp)]
    · have hf : (d :: rest).filter (fun d => d.master) =
          rest.filter (fun d => d.master) := by
        rw [List.filter_cons, if_neg (by simpa using hd)]
      rw [hf]
      simp only [findMasterAux, if_neg hd]
      exact ih

theorem countMasters_eq (devs : List DnsDevice) :
    countMasters devs = (devs.filter (fun d => d.master)).length := rfl

/-- C8: for both master-based strategies, analyze fails with the
several-masters error iff more than one snapshot is flagged master, fails
with the missing-master error iff none is, and in either failure case the
snapshots — in particular every pending set — are returned unchanged. -/
theorem master_strategies_error_spec (devs : List DnsDevice) :
    ((analyzeMasterPropagationOnlyNew devs).1 = some SyncError.multipleMasters
      ↔ 2 ≤ countMasters devs) ∧
    ((analyzeMasterPropagationOnlyNew devs).1 = some SyncError.noMaster
      ↔ countMasters devs = 0) ∧
    (∀ e, (analyzeMasterPropagationOnlyNew devs).1 = some e →
      (analyzeMasterPropagationOnlyNew devs).2 = devs) ∧
    ((analyzeMasterFullMirror devs).1 = some SyncError.multipleMasters
      ↔ 2 ≤ countMasters devs) ∧
    ((analyzeMasterFullMirror devs).1 = some SyncError.noMaster
      ↔ countMasters devs = 0) ∧
    (∀ e, (analyzeMasterFullMirror devs).1 = some e →
      (analyzeMasterFullMirror devs).2 = devs) := by
  have hspec := findMaster_spec devs
  rw [countMasters_eq]
  rcases h : devs.filter (fun d => d.master) with _ | ⟨m1, _ | ⟨m2, rest⟩⟩
  · rw [h] at hspec
    refine ⟨?_, ?_, ?_, ?_, ?_, ?_⟩ <;>
      simp [analyzeMasterPropagationOnlyNew, analyzeMasterFullMirror,
        hspec, h]
  · rw [h] at hspec
    refine ⟨?_, ?_, ?_, ?_, ?_, ?_⟩ <;>
      simp [analyzeMasterPropagationOnlyNew, analyzeMasterFullMirror,
        hspec, h]
  · rw [h] at hspec
    refine ⟨?_, ?_, ?_, ?_, ?_, ?_⟩ <;>
      simp [analyzeMasterPropagationOnlyNew, analyzeMasterFullMirror,
        hspec, h]

/-- C8 witness: two snapshots both flagged master make both strategies fail
with the several-masters error and leave the snapshots untouched. -/
theorem master_strategies_error_spec_witness :
    (analyzeMasterPropagationOnlyNew devsTwoMasters).1 =
      some SyncError.multipleMasters ∧
    (analyzeMasterPropagationOnlyNew devsTwoMasters).2 = devsTwoMasters :=
  ⟨((master_strategies_error_spec devsTwoMasters).1).mpr (by decide),
    ((master_strategies_error_spec devsTwoMasters).2.2.1)
      SyncError.multipleMasters
      (((master_strategies_error_spec devsTwoMasters).1).mpr (by decide))⟩

theorem findMaster_of_unique {devs : List DnsDevice} {m : DnsDevice}
    (hm : m ∈ devs) (hmm : m.master = true) (h1 : countMasters devs = 1) :
    findMaster devs = .ok m := by
  have hmf : m ∈ devs.filter (fun d => d.master) :=
    List.mem_filter.mpr ⟨hm, by simpa using hmm⟩
  rw [countMasters_eq] at h1
  rcases hf : devs.filter (fun d => d.master) with _ | ⟨m1, rest⟩
  · rw [hf] at hmf; simp at hmf
  · rw [hf] at h1 hmf
    have hrest : rest = [] := by simpa using h1
    subst hrest
    have hm1 : m = m1 := by simpa using hmf
    subst hm1
    rw [findMaster_spec, hf]

/-- C1: with exactly one master-flagged snapshot and fresh pending sets,
`MasterPropagationOnlyNew.analyze` succeeds, leaves the master snapshot's
pending set empty, and gives every non-master snapshot the pending set
`master.dns_static - d.dns_static` (set difference under entry
equality). -/
theorem masterPropagationOnlyNew_pending_spec
    (devs : List DnsDevice) (m : DnsDevice)
    (hm : m ∈ devs) (hmm : m.master = true)
    (h1 : countMasters devs = 1)
    (hfresh : ∀ d ∈ devs, d.pending_updates = []) :
    ∃ devs2, analyzeMasterPropagationOnlyNew devs = (none, devs2) ∧
      devs2.length = devs.length ∧
      (∀ k, k < devs.length → (devAt devs k).master = true →
        (devAt devs2 k).pending_updates = []) ∧
      (∀ k, k < devs.length → (devAt devs k).master = false →
        ∀ e, e ∈ (devAt devs2 k).pending_updates ↔
          e ∈ m.dns_static ∧ e ∉ (devAt devs k).dns_static) := by
  have hok := findMaster_of_unique hm hmm h1
  refine ⟨devs.map (fun d => if d.master then d
    else update_pending_updates d (difference m.dns_static d.dns_static)),
    ?_, ?_, ?_, ?_⟩
  · simp [analyzeMasterPropagationOnlyNew, hok]
  · simp
  · intro k hk hmaster
    rw [devAt_map _ _ k hk, if_pos hmaster]
    exact hfresh _ (devAt_mem devs k hk)
  · intro k hk hnm e
    rw [devAt_map _ _ k hk, if_neg (by simp [hnm]),
      mem_update_pending, mem_difference]
    have hp : (devAt devs k).pending_updates = [] :=
      hfresh _ (devAt_mem devs k hk)
    simp [hp]

/-- C1 witness: master {A, B}, slave {A}: after analysis the slave's
pending set holds exactly B and the master's pending set is empty. -/
theorem masterPropagationOnlyNew_pending_spec_witness :
    ∃ devs2,
      analyzeMasterPropagationOnlyNew devsOnlyNewExample = (none, devs2) ∧
      entB ∈ (devAt devs2 1).pending_updates ∧
      entA ∉ (devAt devs2 1).pending_updates ∧
      (devAt devs2 0).pending_updates = [] := by
  obtain ⟨devs2, h0, _, hmaster, hslave⟩ :=
    masterPropagationOnlyNew_pending_spec devsOnlyNewExample
      (devAt devsOnlyNewExample 0) (by decide) (by decide) (by decide)
      (by decide)
  refine ⟨devs2, h0, ?_, ?_, ?_⟩
  · exact (hslave 1 (by decide) (by decide) entB).mpr (by decide)
  · intro hc
    exact ((hslave 1 (by decide) (by decide) entA).mp hc).2 (by decide)
  · exact hmaster 0 (by decide) (by decide)

/-- C2: code-bug evidence.  On master {A} and slave {A, B} the
`MasterFullMirror.analyze` of the source schedules nothing at all — it
computes only the master-minus-slave additions (here empty) and has no
removal path — so the slave keeps its extra entry B and no snapshot ends up
mirroring the master, contrary to the strategy's own help text ("Adds and
removes dns static entries on slaves to match master state"). -/
theorem masterFullMirror_no_removals :
    analyzeMasterFullMirror devsMirrorExample = (none, devsMirrorExample) ∧
    entB ∈ (devAt devsMirrorExample 1).dns_static ∧
    entB ∉ (devAt devsMirrorExample 0).dns_static ∧
    (devAt devsMirrorExample 1).pending_updates = [] := by
  refine ⟨by decide, by decide, by decide, by decide⟩

/-- C7: parsing is idempotent through rendering: re-parsing the rendered
wire command of a parsed line yields an entry equal, by the entry-equality
relation, to the original parse (indeed structurally identical). -/
theorem parse_roundtrip (line : List Char) :
    eqEntry (init_from_line (to_command (init_from_line line)))
      (init_from_line line) = true ∧
    init_from_line (to_command (init_from_line line)) =
      init_from_line line := by
  have h := roundtrip_good (init_from_line_good line)
  exact ⟨(eqEntry_iff _ _).mpr h, h⟩

/-- C6: equal entries always share a fingerprint, unconditionally; and for
any pair of entries built without a fingerprint collision (distinct entries
have distinct fingerprints), entry equality holds iff the fingerprints
coincide. -/
theorem entry_eq_iff_fingerprint (a b : DnsEntry) :
    (eqEntry a b = true → fingerprint a = fingerprint b) ∧
    ((¬ a = b → fingerprint a ≠ fingerprint b) →
      (eqEntry a b = true ↔ fingerprint a = fingerprint b)) := by
  constructor
  · intro h
    rw [(eqEntry_iff a b).mp h]
  · intro hcf
    constructor
    · intro h
      rw [(eqEntry_iff a b).mp h]
    · intro h
      by_contra hne
      exact hcf (fun hab => hne ((eqEntry_iff a b).mpr hab)) h

/-- C6 witness: evaluated on the concrete collision-free pair {name=a},
{name=b} and on a pair of equal entries. -/
theorem entry_eq_iff_fingerprint_witness :
    (eqEntry entA entA = true ↔ fingerprint entA = fingerprint entA) ∧
    (eqEntry entA entB = true ↔ fingerprint entA = fingerprint entB) :=
  ⟨(entry_eq_iff_fingerprint entA entA).2 (by decide),
    (entry_eq_iff_fingerprint entA entB).2 (by decide)⟩

theorem foldl_trace (devs : List DnsDevice) (acc : List (String × DnsEntry)) :
    devs.foldl (fun tr d => tr ++ add_missing_entries d.host d.pending_updates)
      acc =
    acc ++ (devs.map (fun d =>
      d.pending_updates.map (fun e => (d.host, e)))).flatten := by
  induction devs generalizing acc with
  | nil => simp
  | cons d rest ih =>
    rw [List.foldl_cons, ih]
    simp [add_missing_entries, List.append_assoc]

/-- C9: `Strategy.apply` issues exactly one transport add command per
pending entry of every snapshot, in device order; it leaves every snapshot
(entry set and pending set alike) unchanged; and a second apply over the
unchanged snapshots issues exactly the same command trace again. -/
theorem apply_trace_spec (devs : List DnsDevice) :
    (applyAll devs).1 = (devs.map (fun d =>
      d.pending_updates.map (fun e => (d.host, e)))).flatten ∧
    (applyAll devs).2 = devs ∧
    (applyAll (applyAll devs).2).1 = (applyAll devs).1 := by
  refine ⟨?_, rfl, rfl⟩
  have h := foldl_trace devs []
  rw [List.nil_append] at h
  exact h

theorem framesOf_exchangePair (s : List DnsDevice) (i j : Nat) :
    framesOf (exchangePair s i j) = framesOf s := by
  rw [exchangePair]
  split
  · rfl
  · rw [framesOf_set (by rw [frameOf_update_pending]),
      framesOf_set (by rw [frameOf_update_pending])]

theorem length_exchangePair (s : List DnsDevice) (i j : Nat) :
    (exchangePair s i j).length = s.length :=
  (framesOf_length (framesOf_exchangePair s i j)).symm ▸ rfl

/-- What one (i, j) iteration of the Exchange inner loop does to the pending
set of the device at position `k`. -/
theorem mem_exchangePair {s : List DnsDevice} {i j : Nat}
    (hi : i < s.length) (hj : j < s.length) (k : Nat) (x : DnsEntry) :
    x ∈ (devAt (exchangePair s i j) k).pending_updates ↔
      x ∈ (devAt s k).pending_updates
      ∨ ((devAt s i).host ≠ (devAt s j).host ∧
          ((k = j ∧ x ∈ (devAt s i).dns_static ∧
              x ∉ (devAt s j).dns_static) ∨
           (k = i ∧ x ∈ (devAt s j).dns_static ∧
              x ∉ (devAt s i).dns_static))) := by
  by_cases hh : (devAt s i).host = (devAt s j).host
  · simp [exchangePair, hh]
  · have hij : i ≠ j := fun h => hh (by rw [h])
    simp only [exchangePair, if_neg hh]
    have h1j : devAt (s.set j (update_pending_updates (devAt s j)
        (difference (devAt s i).dns_static (devAt s j).dns_static))) j =
        update_pending_updates (devAt s j)
          (difference (devAt s i).dns_static (devAt s j).dns_static) :=
      devAt_set_eq _ hj
    have h1i : devAt (s.set j (update_pending_updates (devAt s j)
        (difference (devAt s i).dns_static (devAt s j).dns_static))) i =
        devAt s i := devAt_set_ne _ (fun h => hij h.symm)
    rw [h1j, h1i]
    have hsj : (update_pending_updates (devAt s j)
        (difference (devAt s i).dns_static (devAt s j).dns_static)).dns_static
        = (devAt s j).dns_static :=
      (frame_fields (frameOf_update_pending _ _)).2.2
    rw [hsj]
    by_cases hki : k = i
    · subst hki
      rw [devAt_set_eq _ (by rw [List.length_set]; exact hi)]
      rw [mem_update_pending, mem_difference]
      constructor
      · rintro (hp | ⟨h1, h2⟩)
        · exact Or.inl hp
        · exact Or.inr ⟨hh, Or.inr ⟨rfl, h1, h2⟩⟩
      · rintro (hp | ⟨_, (⟨hkj, _, _⟩ | ⟨_, h1, h2⟩)⟩)
        · exact Or.inl hp
        · exact absurd hkj hij
        · exact Or.inr ⟨h1, h2⟩
    · rw [devAt_set_ne _ (fun h => hki h.symm)]
      by_cases hkj : k = j
      · subst hkj
        rw [h1j, mem_update_pending, mem_difference]
        constructor
        · rintro (hp | ⟨h1, h2⟩)
          · exact Or.inl hp
          · exact Or.inr ⟨hh, Or.inl ⟨rfl, h1, h2⟩⟩
        · rintro (hp | ⟨_, (⟨_, h1, h2⟩ | ⟨hki2, _, _⟩)⟩)
          · exact Or.inl hp
          · exact Or.inr ⟨h1, h2⟩
          · exact absurd hki2 hki
      · rw [devAt_set_ne _ (fun h => hkj h.symm)]
        constructor
        · exact fun hp => Or.inl hp
        · rintro (hp | ⟨_, (⟨hkj2, _, _⟩ | ⟨hki2, _, _⟩)⟩)
          · exact hp
          · exact absurd hkj2 hkj
          · exact absurd hki2 hki

theorem framesOf_exchangeInner (M : List Nat) (i : Nat)
    (s : List DnsDevice) :
    framesOf (M.foldl (fun t j => exchangePair t i j) s) = framesOf s := by
  induction M generalizing s with
  | nil => rfl
  | cons j M' ih => rw [List.foldl_cons, ih, framesOf_exchangePair]

/-- What the whole Exchange inner loop (for the fixed first device `i`,
second device ranging over the positions in `M`) does to the pending set at
position `k`. -/
theorem mem_exchangeInner {s : List DnsDevice} {i : Nat}
    (hi : i < s.length) (M : List Nat) (hM : ∀ j ∈ M, j < s.length)
    (k : Nat) (x : DnsEntry) :
    x ∈ (devAt (M.foldl (fun t j => exchangePair t i j) s) k).pending_updates
      ↔ x ∈ (devAt s k).pending_updates
      ∨ (k ∈ M ∧ (devAt s i).host ≠ (devAt s k).host ∧
          x ∈ (devAt s i).dns_static ∧ x ∉ (devAt s k).dns_static)
      ∨ (k = i ∧ ∃ j ∈ M, (devAt s i).host ≠ (devAt s j).host ∧
          x ∈ (devAt s j).dns_static ∧ x ∉ (devAt s i).dns_static) := by
  induction M generalizing s with
  | nil => simp
  | cons j M' ih =>
    rw [List.foldl_cons]
    have hj : j < s.length := hM j (List.mem_cons_self j M')
    have hframes := framesOf_exchangePair s i j
    have hlen : (exchangePair s i j).length = s.length :=
      length_exchangePair s i j
    have hH : ∀ t, (devAt (exchangePair s i j) t).host = (devAt s t).host :=
      fun t => (frame_fields (framesOf_devAt hframes t)).1
    have hS : ∀ t, (devAt (exchangePair s i j) t).dns_static =
        (devAt s t).dns_static :=
      fun t => (frame_fields (framesOf_devAt hframes t)).2.2
    rw [ih (by rw [hlen]; exact hi)
      (fun j' hj' => by rw [hlen]; exact hM j' (List.mem_cons_of_mem j hj'))]
    simp only [hH, hS, mem_exchangePair hi hj]
    constructor
    · rintro ((hp | ⟨hh, (⟨rfl, h1, h2⟩ | ⟨rfl, h1, h2⟩)⟩) |
        ⟨hkM, hh, h1, h2⟩ | ⟨rfl, j', hj', hh, h1, h2⟩)
      · exact Or.inl hp
      · exact Or.inr (Or.inl ⟨List.mem_cons_self k M', hh, h1, h2⟩)
      · exact Or.inr (Or.inr ⟨rfl,
          j, List.mem_cons_self j M', hh, h1, h2⟩)
      · exact Or.inr (Or.inl ⟨List.mem_cons_of_mem j hkM, hh, h1, h2⟩)
      · exact Or.inr (Or.inr ⟨rfl,
          j', List.mem_cons_of_mem j hj', hh, h1, h2⟩)
    · rintro (hp | ⟨hkM, hh, h1, h2⟩ | ⟨rfl, j', hj', hh, h1, h2⟩)
      · exact Or.inl (Or.inl hp)
      · rcases List.mem_cons.mp hkM with rfl | hkM'
        · exact Or.inl (Or.inr ⟨hh, Or.inl ⟨rfl, h1, h2⟩⟩)
        · exact Or.inr (Or.inl ⟨hkM', hh, h1, h2⟩)
      · rcases List.mem_cons.mp hj' with rfl | hj''
        · exact Or.inl (Or.inr ⟨hh, Or.inr ⟨rfl, h1, h2⟩⟩)
        · exact Or.inr (Or.inr ⟨rfl, j', hj'', hh, h1, h2⟩)

theorem framesOf_exchangeOuter (L : List Nat) (n : Nat)
    (s : List DnsDevice) :
    framesOf (L.foldl (fun t i => (List.range n).foldl
      (fun t2 j => exchangePair t2 i j) t) s) = framesOf s := by
  induction L generalizing s with
  | nil => rfl
  | cons i L' ih => rw [List.foldl_cons, ih, framesOf_exchangeInner]

/-- What the whole Exchange double loop does to the pending set at
position `k`. -/
theorem mem_exchangeOuter {n : Nat} (L : List Nat) (hL : ∀ i ∈ L, i < n)
    {s : List DnsDevice} (hs : s.length = n) (k : Nat) (x : DnsEntry) :
    x ∈ (devAt (L.foldl (fun t i => (List.range n).foldl
        (fun t2 j => exchangePair t2 i j) t) s) k).pending_updates ↔
      x ∈ (devAt s k).pending_updates
      ∨ ∃ i ∈ L,
          ((k < n ∧ (devAt s i).host ≠ (devAt s k).host ∧
              x ∈ (devAt s i).dns_static ∧ x ∉ (devAt s k).dns_static)
           ∨ (k = i ∧ ∃ j, j < n ∧
              (devAt s i).host ≠ (devAt s j).host ∧
              x ∈ (devAt s j).dns_static ∧ x ∉ (devAt s i).dns_static)) := by
  induction L generalizing s with
  | nil => simp
  | cons i L' ih =>
    rw [List.foldl_cons]
    have hin : i < s.length := by
      rw [hs]; exact hL i (List.mem_cons_self i L')
    have hinner := mem_exchangeInner hin (List.range n)
      (fun j hj => by rw [hs]; exact List.mem_range.mp hj) k x
    have hframes := framesOf_exchangeInner (List.range n) i s
    have hH : ∀ t, (devAt ((List.range n).foldl
        (fun t2 j => exchangePair t2 i j) s) t).host = (devAt s t).host :=
      fun t => (frame_fields (framesOf_devAt hframes t)).1
    have hS : ∀ t, (devAt ((List.range n).foldl
        (fun t2 j => exchangePair t2 i j) s) t).dns_static =
        (devAt s t).dns_static :=
      fun t => (frame_fields (framesOf_devAt hframes t)).2.2
    have hs2 : ((List.range n).foldl
        (fun t2 j => exchangePair t2 i j) s).length = n := by
      rw [framesOf_length hframes, hs]
    rw [ih (fun i' hi' => hL i' (List.mem_cons_of_mem i hi')) hs2]
    simp only [hH, hS, hinner, List.mem_range]
    constructor
    · rintro ((hp | ⟨hkn, hh, h1, h2⟩ | ⟨rfl, j, hjn, hh, h1, h2⟩) |
        ⟨i', hi', hrest⟩)
      · exact Or.inl hp
      · exact Or.inr ⟨i, List.mem_cons_self i L',
          Or.inl ⟨hkn, hh, h1, h2⟩⟩
      · exact Or.inr ⟨k, List.mem_cons_self k L',
          Or.inr ⟨rfl, j, hjn, hh, h1, h2⟩⟩
      · exact Or.inr ⟨i', List.mem_cons_of_mem i hi', hrest⟩
    · rintro (hp | ⟨i', hi', hrest⟩)
      · exact Or.inl (Or.inl hp)
      · rcases List.mem_cons.mp hi' with rfl | hi''
        · rcases hrest with ⟨hkn, hh, h1, h2⟩ | ⟨rfl, j, hjn, hh, h1, h2⟩
          · exact Or.inl (Or.inr (Or.inl ⟨hkn, hh, h1, h2⟩))
          · exact Or.inl (Or.inr (Or.inr ⟨rfl, j, hjn, hh, h1, h2⟩))
        · exact Or.inr ⟨i', hi'', hrest⟩

theorem devAt_eq_get {s : List DnsDevice} {k : Nat} (h : k < s.length) :
    devAt s k = s.get ⟨k, h⟩ := by
  induction s generalizing k with
  | nil => simp at h
  | cons a s ih =>
    cases k with
    | zero => rfl
    | succ k => exact ih (Nat.lt_of_succ_lt_succ h)

theorem hosts_distinct {devs : List DnsDevice}
    (hh : devs.Pairwise (fun a b => a.host ≠ b.host)) {a b : Nat}
    (ha : a < devs.length) (hb : b < devs.length) (hab : a ≠ b) :
    (devAt devs a).host ≠ (devAt devs b).host := by
  rw [devAt_eq_get ha, devAt_eq_get hb]
  rcases Nat.lt_or_ge a b with hlt | hge
  · exact List.pairwise_iff_get.mp hh ⟨a, ha⟩ ⟨b, hb⟩ hlt
  · have hba : b < a := Nat.lt_of_le_of_ne hge (fun e => hab e.symm)
    exact (List.pairwise_iff_get.mp hh ⟨b, hb⟩ ⟨a, ha⟩ hba).symm

/-- C3: with pairwise-distinct hosts and fresh pending sets, one
`Exchange.analyze` pass gives every device the pending set equal to the
union, over every other device, of that device's entry set minus its own —
and no device's pending set ever contains an entry equal to one already in
its own entry set. -/
theorem exchange_pending_spec (devs : List DnsDevice)
    (hhosts : devs.Pairwise (fun a b => a.host ≠ b.host))
    (hfresh : ∀ d ∈ devs, d.pending_updates = []) :
    ∀ k, k < devs.length → ∀ x,
      (x ∈ (devAt (exchangeAnalyze devs) k).pending_updates ↔
        ∃ j, j < devs.length ∧ j ≠ k ∧
          x ∈ (devAt devs j).dns_static ∧
          x ∉ (devAt devs k).dns_static) ∧
      (x ∈ (devAt (exchangeAnalyze devs) k).pending_updates →
        x ∉ (devAt devs k).dns_static) := by
  intro k hk x
  have hfreshk : (devAt devs k).pending_updates = [] :=
    hfresh _ (devAt_mem devs k hk)
  have houter := mem_exchangeOuter (n := devs.length) (List.range devs.length)
    (fun i hi => List.mem_range.mp hi) (rfl) k x
  rw [exchangeAnalyze, houter, hfreshk]
  have hiff : (∃ i ∈ List.range devs.length,
      ((k < devs.length ∧ (devAt devs i).host ≠ (devAt devs k).host ∧
          x ∈ (devAt devs i).dns_static ∧ x ∉ (devAt devs k).dns_static)
       ∨ (k = i ∧ ∃ j, j < devs.length ∧
          (devAt devs i).host ≠ (devAt devs j).host ∧
          x ∈ (devAt devs j).dns_static ∧ x ∉ (devAt devs i).dns_static)))
      ↔ ∃ j, j < devs.length ∧ j ≠ k ∧ x ∈ (devAt devs j).dns_static ∧
          x ∉ (devAt devs k).dns_static := by
    constructor
    · rintro ⟨i, hi, ⟨_, hh, h1, h2⟩ | ⟨rfl, j, hjn, hh, h1, h2⟩⟩
      · have hik : i ≠ k := fun e => hh (by rw [e])
        exact ⟨i, List.mem_range.mp hi, hik, h1, h2⟩
      · have hjk : j ≠ k := fun e => hh (by rw [e])
        exact ⟨j, hjn, hjk, h1, h2⟩
    · rintro ⟨j, hjn, hjk, h1, h2⟩
      exact ⟨j, List.mem_range.mpr hjn,
        Or.inl ⟨hk, hosts_distinct hhosts hjn hk hjk, h1, h2⟩⟩
  constructor
  · rw [← hiff]
    simp
  · intro hmem
    rcases (by simpa using hmem : ∃ i ∈ List.range devs.length,
        ((k < devs.length ∧ (devAt devs i).host ≠ (devAt devs k).host ∧
            x ∈ (devAt devs i).dns_static ∧ x ∉ (devAt devs k).dns_static)
         ∨ (k = i ∧ ∃ j, j < devs.length ∧
            (devAt devs i).host ≠ (devAt devs j).host ∧
            x ∈ (devAt devs j).dns_static ∧
            x ∉ (devAt devs i).dns_static))) with
      ⟨i, hi, ⟨_, _, _, h2⟩ | ⟨rfl, j, _, _, _, h2⟩⟩
    · exact h2
    · exact h2

/-- C3 witness: on device1 = {A}, device2 = {B}, device3 = {} with distinct
hosts, the pass pends B on device1, A on device2, both on device3, and
never pends A back onto device1. -/
theorem exchange_pending_spec_witness :
    entB ∈ (devAt (exchangeAnalyze devsExchangeExample) 0).pending_updates ∧
    entA ∈ (devAt (exchangeAnalyze devsExchangeExample) 1).pending_updates ∧
    entA ∈ (devAt (exchangeAnalyze devsExchangeExample) 2).pending_updates ∧
    entB ∈ (devAt (exchangeAnalyze devsExchangeExample) 2).pending_updates ∧
    entA ∉ (devAt (exchangeAnalyze devsExchangeExample) 0).pending_updates := by
  refine ⟨?_, ?_, ?_, ?_, ?_⟩
  · exact ((exchange_pending_spec devsExchangeExample (by decide) (by decide)
      0 (by decide) entB).1).mpr ⟨1, by decide, by decide, by decide,
        by decide⟩
  · exact ((exchange_pending_spec devsExchangeExample (by decide) (by decide)
      1 (by decide) entA).1).mpr ⟨0, by decide, by decide, by decide,
        by decide⟩
  · exact ((exchange_pending_spec devsExchangeExample (by decide) (by decide)
      2 (by decide) entA).1).mpr ⟨0, by decide, by decide, by decide,
        by decide⟩
  · exact ((exchange_pending_spec devsExchangeExample (by decide) (by decide)
      2 (by decide) entB).1).mpr ⟨1, by decide, by decide, by decide,
        by decide⟩
  · intro h
    exact ((exchange_pending_spec devsExchangeExample (by decide) (by decide)
      0 (by decide) entA).2) h (by decide)

theorem containsKey_iff (t : List (Nat × VotedEntry)) (k : Nat) :
    containsKey t k = true ↔ ∃ kv ∈ t, kv.1 = k := by
  simp [containsKey]

theorem containsKey_map_keyfix (t : List (Nat × VotedEntry))
    (f : Nat × VotedEntry → Nat × VotedEntry)
    (hf : ∀ kv, (f kv).1 = kv.1) (k : Nat) :
    containsKey (t.map f) k = containsKey t k := by
  induction t with
  | nil => rfl
  | cons kv t ih =>
    simp only [List.map_cons, containsKey, List.any_cons, hf]
    simp only [containsKey] at ih
    rw [ih]

theorem containsKey_voteKey (t : List (Nat × VotedEntry)) (k0 k : Nat) :
    containsKey (voteKey t k0) k = containsKey t k :=
  containsKey_map_keyfix t _
    (fun kv => by by_cases h : kv.1 = k0 <;> simp [h]) k

theorem containsKey_append (t1 t2 : List (Nat × VotedEntry)) (k : Nat) :
    containsKey (t1 ++ t2) k = (containsKey t1 k || containsKey t2 k) := by
  simp [containsKey, List.any_append]

theorem containsKey_bump (t : List (Nat × VotedEntry)) (R : List DnsEntry)
    (k : Nat) : containsKey (bumpTally t R) k = containsKey t k :=
  containsKey_map_keyfix t _
    (fun kv => by by_cases h : kv.2.entry ∈ R <;> simp [h]) k

theorem mem_voteKey {t : List (Nat × VotedEntry)} {k0 : Nat}
    {kv : Nat × VotedEntry} (h : kv ∈ voteKey t k0) :
    ∃ kv0 ∈ t, kv = (if kv0.1 = k0 then (kv0.1, vote kv0.2) else kv0) := by
  rcases List.mem_map.mp h with ⟨kv0, h0, heq⟩
  exact ⟨kv0, h0, heq.symm⟩

theorem tallyWF_voteKey {t : List (Nat × VotedEntry)} (h : TallyWF t)
    (k0 : Nat) : TallyWF (voteKey t k0) := by
  have hfst : ∀ kv : Nat × VotedEntry,
      (if kv.1 = k0 then (kv.1, vote kv.2) else kv).1 = kv.1 :=
    fun kv => by by_cases hk : kv.1 = k0 <;> simp [hk]
  constructor
  · intro kv hkv
    rcases mem_voteKey hkv with ⟨kv0, h0, rfl⟩
    have hk0 := h.1 kv0 h0
    by_cases hk : kv0.1 = k0
    · rw [if_pos hk]
      exact hk0
    · rw [if_neg hk]
      exact hk0
  · intro kv1 h1 kv2 h2 hk
    rcases mem_voteKey h1 with ⟨kv01, h01, rfl⟩
    rcases mem_voteKey h2 with ⟨kv02, h02, rfl⟩
    rw [hfst kv01, hfst kv02] at hk
    rw [h.2 kv01 h01 kv02 h02 hk]

theorem tallyWF_append_new {t : List (Nat × VotedEntry)} (h : TallyWF t)
    {rec : DnsEntry} {total : Nat}
    (hnew : containsKey t (fingerprint rec) = false) :
    TallyWF (t ++ [(fingerprint rec, ⟨rec, total, 1⟩)]) := by
  constructor
  · intro kv hkv
    rcases List.mem_append.mp hkv with hkv | hkv
    · exact h.1 kv hkv
    · rcases List.mem_singleton.mp hkv with rfl; rfl
  · intro kv1 h1 kv2 h2 hk
    have hnotin : ∀ kv ∈ t, kv.1 ≠ fingerprint rec := by
      intro kv hkv he
      have : containsKey t (fingerprint rec) = true :=
        (containsKey_iff t _).mpr ⟨kv, hkv, he⟩
      rw [this] at hnew; exact Bool.true_eq_false.mp hnew
    rcases List.mem_append.mp h1 with h1' | h1' <;>
      rcases List.mem_append.mp h2 with h2' | h2'
    · exact h.2 kv1 h1' kv2 h2' hk
    · rcases List.mem_singleton.mp h2' with rfl
      exact absurd hk (hnotin kv1 h1')
    · rcases List.mem_singleton.mp h1' with rfl
      exact absurd hk.symm (hnotin kv2 h2')
    · rw [List.mem_singleton.mp h1', List.mem_singleton.mp h2']

theorem tallyWF_processRecord {t : List (Nat × VotedEntry)} (h : TallyWF t)
    (total : Nat) (rec : DnsEntry) :
    TallyWF (processRecord total t rec) := by
  rw [processRecord]
  by_cases hc : containsKey t (fingerprint rec) = true
  · rw [if_pos hc]
    exact tallyWF_voteKey h _
  · rw [if_neg hc]
    refine tallyWF_append_new h ?_
    cases hcc : containsKey t (fingerprint rec)
    · rfl
    · exact absurd hcc hc

theorem tallyWF_foldRecords (total : Nat) (R : List DnsEntry)
    {t : List (Nat × VotedEntry)} (h : TallyWF t) :
    TallyWF (R.foldl (processRecord total) t) := by
  induction R generalizing t with
  | nil => exact h
  | cons r R' ih => exact ih (tallyWF_processRecord h total r)

theorem tallyWF_collectVotes (devs : List DnsDevice) :
    TallyWF (collectVotes devs) := by
  rw [collectVotes]
  have : ∀ (D : List DnsDevice) (t : List (Nat × VotedEntry)), TallyWF t →
      TallyWF (D.foldl (fun t d =>
        d.dns_static.foldl (processRecord devs.length) t) t) := by
    intro D
    induction D with
    | nil => exact fun t h => h
    | cons d D' ih =>
      intro t h
      exact ih _ (tallyWF_foldRecords devs.length d.dns_static h)
  exact this devs [] ⟨by simp, by simp⟩

theorem framesOf_markFold (e : DnsEntry) (M : List Nat)
    (s : List DnsDevice) :
    framesOf (M.foldl (fun s2 i =>
      if memEntry e (devAt s2 i).dns_static then s2
      else s2.set i (append_pending_updates (devAt s2 i) e)) s) =
    framesOf s := by
  induction M generalizing s with
  | nil => rfl
  | cons i M' ih =>
    rw [List.foldl_cons, ih]
    by_cases hc : memEntry e (devAt s i).dns_static = true
    · rw [if_pos hc]
    · rw [if_neg hc, framesOf_set (by rw [frameOf_append_pending])]

theorem framesOf_markEntry (e : DnsEntry) (s : List DnsDevice) :
    framesOf (markEntry e s) = framesOf s :=
  framesOf_markFold e (List.range s.length) s

/-- What the device loop for one approved entry does to the pending set at
position `k`, for an arbitrary index list `M`. -/
theorem mem_markFold (e : DnsEntry) (M : List Nat)
    (s : List DnsDevice) (hM : ∀ i ∈ M, i < s.length) (k : Nat)
    (x : DnsEntry) :
    x ∈ (devAt (M.foldl (fun s2 i =>
        if memEntry e (devAt s2 i).dns_static then s2
        else s2.set i (append_pending_updates (devAt s2 i) e)) s)
      k).pending_updates ↔
      x ∈ (devAt s k).pending_updates ∨
        (k ∈ M ∧ x = e ∧ e ∉ (devAt s k).dns_static) := by
  induction M generalizing s with
  | nil => simp
  | cons i M' ih =>
    rw [List.foldl_cons]
    have hi : i < s.length := hM i (List.mem_cons_self i M')
    by_cases hc : memEntry e (devAt s i).dns_static = true
    · rw [if_pos hc]
      rw [memEntry_iff] at hc
      rw [ih s (fun i' hi' => hM i' (List.mem_cons_of_mem i hi'))]
      constructor
      · rintro (hp | ⟨hkM, rfl, hns⟩)
        · exact Or.inl hp
        · exact Or.inr ⟨List.mem_cons_of_mem i hkM, rfl, hns⟩
      · rintro (hp | ⟨hkM, rfl, hns⟩)
        · exact Or.inl hp
        · rcases List.mem_cons.mp hkM with rfl | hkM'
          · exact absurd hc hns
          · exact Or.inr ⟨hkM', rfl, hns⟩
    · rw [if_neg hc]
      have hlen : (s.set i (append_pending_updates (devAt s i) e)).length =
          s.length := by rw [List.length_set]
      have hframes : framesOf (s.set i
          (append_pending_updates (devAt s i) e)) = framesOf s :=
        framesOf_set (by rw [frameOf_append_pending])
      rw [ih _ (fun i' hi' => by
        rw [hlen]; exact hM i' (List.mem_cons_of_mem i hi'))]
      have hS : ∀ t, (devAt (s.set i
          (append_pending_updates (devAt s i) e)) t).dns_static =
          (devAt s t).dns_static :=
        fun t => (frame_fields (framesOf_devAt hframes t)).2.2
      rw [hS k]
      have hc2 : e ∉ (devAt s i).dns_static :=
        fun hmem => hc ((memEntry_iff e _).mpr hmem)
      by_cases hki : k = i
      · subst hki
        rw [devAt_set_eq _ hi, mem_append_pending]
        constructor
        · rintro ((hp | rfl) | ⟨hkM, rfl, hns⟩)
          · exact Or.inl hp
          · exact Or.inr ⟨List.mem_cons_self k M', rfl, hc2⟩
          · exact Or.inr ⟨List.mem_cons_of_mem k hkM, rfl, hns⟩
        · rintro (hp | ⟨hkM, rfl, hns⟩)
          · exact Or.inl (Or.inl hp)
          · exact Or.inl (Or.inr rfl)
      · rw [devAt_set_ne _ (fun h => hki h.symm)]
        constructor
        · rintro (hp | ⟨hkM, rfl, hns⟩)
          · exact Or.inl hp
          · exact Or.inr ⟨List.mem_cons_of_mem i hkM, rfl, hns⟩
        · rintro (hp | ⟨hkM, rfl, hns⟩)
          · exact Or.inl hp
          · rcases List.mem_cons.mp hkM with rfl | hkM'
            · exact absurd rfl hki
            · exact Or.inr ⟨hkM', rfl, hns⟩

theorem mem_markEntry (e : DnsEntry) (s : List DnsDevice) (k : Nat)
    (x : DnsEntry) :
    x ∈ (devAt (markEntry e s) k).pending_updates ↔
      x ∈ (devAt s k).pending_updates ∨
        (k < s.length ∧ x = e ∧ e ∉ (devAt s k).dns_static) := by
  rw [markEntry, mem_markFold e (List.range s.length) s
    (fun i hi => List.mem_range.mp hi) k x, List.mem_range]

theorem framesOf_processVoted (s : List DnsDevice)
    (kv : Nat × VotedEntry) :
    framesOf (processVoted s kv) = framesOf s := by
  rw [processVoted]
  split
  · rfl
  · split
    · exact framesOf_markEntry _ _
    · rfl

theorem mem_processVoted (s : List DnsDevice) (kv : Nat × VotedEntry)
    (k : Nat) (x : DnsEntry) :
    x ∈ (devAt (processVoted s kv) k).pending_updates ↔
      x ∈ (devAt s k).pending_updates ∨
        (get_percent kv.2 ≠ 100 ∧ 50 ≤ get_percent kv.2 ∧ k < s.length ∧
          x = kv.2.entry ∧ kv.2.entry ∉ (devAt s k).dns_static) := by
  rw [processVoted]
  by_cases h100 : get_percent kv.2 = 100
  · rw [if_pos h100]
    simp [h100]
  · rw [if_neg h100]
    by_cases h50 : 50 ≤ get_percent kv.2
    · rw [if_pos h50, mem_markEntry]
      simp [h100, h50]
    · rw [if_neg h50]
      simp [h100, h50]

theorem framesOf_authFold (T : List (Nat × VotedEntry))
    (s : List DnsDevice) :
    framesOf (T.foldl processVoted s) = framesOf s := by
  induction T generalizing s with
  | nil => rfl
  | cons kv T' ih => rw [List.foldl_cons, ih, framesOf_processVoted]

/-- What the whole key loop of `Authoritative.analyze` does to the pending
set at position `k`. -/
theorem mem_authFold (T : List (Nat × VotedEntry)) (s : List DnsDevice)
    (k : Nat) (x : DnsEntry) :
    x ∈ (devAt (T.foldl processVoted s) k).pending_updates ↔
      x ∈ (devAt s k).pending_updates ∨
        ∃ kv ∈ T, get_percent kv.2 ≠ 100 ∧ 50 ≤ get_percent kv.2 ∧
          k < s.length ∧ x = kv.2.entry ∧
          kv.2.entry ∉ (devAt s k).dns_static := by
  induction T generalizing s with
  | nil => simp
  | cons kv T' ih =>
    rw [List.foldl_cons, ih]
    have hframes := framesOf_processVoted s kv
    have hlen : (processVoted s kv).length = s.length :=
      (framesOf_length hframes).symm ▸ rfl
    have hS : ∀ t, (devAt (processVoted s kv) t).dns_static =
        (devAt s t).dns_static :=
      fun t => (frame_fields (framesOf_devAt hframes t)).2.2
    rw [mem_processVoted]
    constructor
    · rintro ((hp | ⟨h1, h2, h3, rfl, h5⟩) | ⟨kv', hkv', h1, h2, h3, rfl, h5⟩)
      · exact Or.inl hp
      · exact Or.inr ⟨kv, List.mem_cons_self kv T', h1, h2, h3, rfl, h5⟩
      · rw [hlen] at h3
        rw [hS k] at h5
        exact Or.inr ⟨kv', List.mem_cons_of_mem kv hkv', h1, h2, h3, rfl, h5⟩
    · rintro (hp | ⟨kv', hkv', h1, h2, h3, rfl, h5⟩)
      · exact Or.inl (Or.inl hp)
      · rcases List.mem_cons.mp hkv' with rfl | hkv''
        · exact Or.inl (Or.inr ⟨h1, h2, h3, rfl, h5⟩)
        · refine Or.inr ⟨kv', hkv'', h1, h2, ?_, rfl, ?_⟩
          · rw [hlen]; exact h3
          · rw [hS k]; exact h5

theorem tally_entry_inj {t : List (Nat × VotedEntry)} (h : TallyWF t)
    {kv1 kv2 : Nat × VotedEntry} (h1 : kv1 ∈ t) (h2 : kv2 ∈ t)
    (he : kv1.2.entry = kv2.2.entry) : kv1 = kv2 :=
  h.2 kv1 h1 kv2 h2 (by rw [h.1 kv1 h1, h.1 kv2 h2, he])

/-- C4: over fresh snapshots, for every tallied entry: if its approval
percentage lies in [50, 100) it ends up pending on exactly the devices
whose entry set lacks an equal entry (the 50% boundary included); if its
approval is 100% or below 50% it is never marked pending anywhere. -/
theorem authoritative_marking_spec (devs : List DnsDevice)
    (hfresh : ∀ d ∈ devs, d.pending_updates = []) :
    ∀ kv ∈ collectVotes devs,
      (50 ≤ get_percent kv.2 → get_percent kv.2 < 100 →
        ∀ k, k < devs.length →
          (kv.2.entry ∈ (devAt (authAnalyze devs) k).pending_updates ↔
            kv.2.entry ∉ (devAt devs k).dns_static)) ∧
      (get_percent kv.2 = 100 → ∀ k,
        kv.2.entry ∉ (devAt (authAnalyze devs) k).pending_updates) ∧
      (get_percent kv.2 < 50 → ∀ k,
        kv.2.entry ∉ (devAt (authAnalyze devs) k).pending_updates) := by
  intro kv hkv
  have hWF := tallyWF_collectVotes devs
  have hmem : ∀ k x, x ∈ (devAt (authAnalyze devs) k).pending_updates ↔
      x ∈ (devAt devs k).pending_updates ∨
      ∃ kv' ∈ collectVotes devs, get_percent kv'.2 ≠ 100 ∧
        50 ≤ get_percent kv'.2 ∧ k < devs.length ∧ x = kv'.2.entry ∧
        kv'.2.entry ∉ (devAt devs k).dns_static :=
    fun k x => mem_authFold (collectVotes devs) devs k x
  have hfreshAt : ∀ k, k < devs.length →
      (devAt devs k).pending_updates = [] :=
    fun k hk => hfresh _ (devAt_mem devs k hk)
  refine ⟨?_, ?_, ?_⟩
  · intro h50 h100 k hk
    rw [hmem k kv.2.entry, hfreshAt k hk]
    constructor
    · rintro (hp | ⟨kv', hkv', _, _, _, he, h5⟩)
      · simp at hp
      · have : kv = kv' := tally_entry_inj hWF hkv hkv' he
        rw [this]
        exact h5
    · intro hns
      exact Or.inr ⟨kv, hkv, ne_of_lt h100, h50, hk, rfl, hns⟩
  · intro h100 k hc
    rcases (hmem k kv.2.entry).mp hc with hp | ⟨kv', hkv', h1, _, hk, he, _⟩
    · rcases Nat.lt_or_ge k devs.length with hk | hk
      · rw [hfreshAt k hk] at hp
        simp at hp
      · have : devAt devs k = defaultDev := by
          rw [devAt, List.getD_eq_default]
          exact hk
        rw [this] at hp
        simp [defaultDev] at hp
    · have : kv = kv' := tally_entry_inj hWF hkv hkv' he
      rw [← this] at h1
      exact h1 h100
  · intro h50 k hc
    rcases (hmem k kv.2.entry).mp hc with hp | ⟨kv', hkv', _, h2, hk, he, _⟩
    · rcases Nat.lt_or_ge k devs.length with hk | hk
      · rw [hfreshAt k hk] at hp
        simp at hp
      · have : devAt devs k = defaultDev := by
          rw [devAt, List.getD_eq_default]
          exact hk
        rw [this] at hp
        simp [defaultDev] at hp
    · have : kv = kv' := tally_entry_inj hWF hkv hkv' he
      rw [← this] at h2
      exact absurd h50 (not_lt.mpr h2)

/-- C4 witness: entry held by one device out of two — approval exactly
50.0%, inclusive boundary — is marked pending on the lacking device and not
on the holder. -/
theorem authoritative_marking_spec_witness :
    entA ∈ (devAt (authAnalyze devsAuthHalf) 1).pending_updates ∧
    entA ∉ (devAt (authAnalyze devsAuthHalf) 0).pending_updates := by
  have h := (authoritative_marking_spec devsAuthHalf (by decide)
    (fingerprint entA, ⟨entA, 2, 1⟩) (by decide)).1
    (by norm_num [get_percent, roundTo2])
    (by norm_num [get_percent, roundTo2])
  exact ⟨(h 1 (by decide)).mpr (by decide),
    fun hc => ((h 0 (by decide)).mp hc) (by decide)⟩

/-- C5 counterexample: the tally is keyed by the integer `__hash__`, so two
unequal entries with the same hash string ({address: "1name2"} versus
{address: "1", name: "2"}) merge into one `VotedEntry`: with a single
device holding both, the tallied entry records 2 votes although only 1
device (of 1) holds an entry equal to it — its "approval" is 200%. -/
theorem collectVotes_count_counterexample :
    (fingerprint entAmbig1, (⟨entAmbig1, 1, 2⟩ : VotedEntry)) ∈
      collectVotes [devCollision] ∧
    (2 : Nat) ≠ countDevs [devCollision] entAmbig1 ∧
    countDevs [devCollision] entAmbig1 = 1 := by
  refine ⟨by decide, by decide, by decide⟩

theorem entry_ne_of_not_containsKey {t : List (Nat × VotedEntry)}
    (hWF : TallyWF t) {r : DnsEntry}
    (hcf : containsKey t (fingerprint r) = false)
    {kv : Nat × VotedEntry} (hkv : kv ∈ t) : kv.2.entry ≠ r := by
  intro he
  have hck : containsKey t (fingerprint r) = true :=
    (containsKey_iff t _).mpr ⟨kv, hkv, by rw [hWF.1 kv hkv, he]⟩
  rw [hck] at hcf
  exact Bool.true_eq_false.mp hcf

/-- Folding one device's (duplicate-free, collision-free) record list into
the tally bumps every existing pair at most once — exactly when the device
holds an equal entry — and appends one fresh pair per record whose
fingerprint was not yet a key. -/
theorem foldRecords_eq (total : Nat) (R : List DnsEntry) (S : List DnsEntry)
    (hCF : CollisionFree S) (t : List (Nat × VotedEntry))
    (hRS : ∀ r ∈ R, r ∈ S) (htS : ∀ kv ∈ t, kv.2.entry ∈ S)
    (hWF : TallyWF t) (hR : R.Nodup) :
    R.foldl (processRecord total) t = bumpTally t R ++ newsTally total t R := by
  induction R generalizing t with
  | nil => simp [bumpTally, newsTally]
  | cons r R' ih =>
    rw [List.foldl_cons]
    have hrS : r ∈ S := hRS r (List.mem_cons_self r R')
    have hR'S : ∀ r' ∈ R', r' ∈ S :=
      fun r' h => hRS r' (List.mem_cons_of_mem r h)
    have hR' : R'.Nodup := (List.nodup_cons.mp hR).2
    have hrR' : r ∉ R' := (List.nodup_cons.mp hR).1
    by_cases hc : containsKey t (fingerprint r) = true
    · rw [processRecord, if_pos hc]
      have htS' : ∀ kv ∈ voteKey t (fingerprint r), kv.2.entry ∈ S := by
        intro kv hkv
        rcases mem_voteKey hkv with ⟨kv0, h0, rfl⟩
        by_cases hk : kv0.1 = fingerprint r
        · rw [if_pos hk]; exact htS kv0 h0
        · rw [if_neg hk]; exact htS kv0 h0
      rw [ih (voteKey t (fingerprint r)) hR'S htS'
        (tallyWF_voteKey hWF _) hR']
      have hbump : bumpTally (voteKey t (fingerprint r)) R' =
          bumpTally t (r :: R') := by
        rw [bumpTally, bumpTally, voteKey, List.map_map]
        apply List.map_congr_left
        intro kv0 h0
        by_cases hk : kv0.1 = fingerprint r
        · have hent : kv0.2.entry = r :=
            hCF _ (htS kv0 h0) _ hrS (by rw [← hWF.1 kv0 h0]; exact hk)
          simp only [Function.comp, if_pos hk]
          rw [if_neg (by
            show (vote kv0.2).entry ∉ R'
            rw [show (vote kv0.2).entry = kv0.2.entry from rfl, hent]
            exact hrR')]
          rw [if_pos (by rw [hent]; exact List.mem_cons_self r R')]
        · have hent : kv0.2.entry ≠ r :=
            fun he => hk (by rw [hWF.1 kv0 h0, he])
          simp only [Function.comp, if_neg hk]
          by_cases hm : kv0.2.entry ∈ R'
          · rw [if_pos hm, if_pos (List.mem_cons_of_mem r hm)]
          · rw [if_neg hm, if_neg (by
              rw [List.mem_cons]
              rintro (he | hm2)
              · exact hent he
              · exact hm hm2)]
      have hnews : newsTally total (voteKey t (fingerprint r)) R' =
          newsTally total t (r :: R') := by
        rw [newsTally, newsTally, List.filter_cons, if_neg (by simp [hc])]
        congr 1
        apply List.filter_congr
        intro r' _
        rw [containsKey_voteKey]
      rw [hbump, hnews]
    · rw [processRecord, if_neg hc]
      have hcf : containsKey t (fingerprint r) = false := by
        cases h2 : containsKey t (fingerprint r)
        · rfl
        · exact absurd h2 hc
      have htS' : ∀ kv ∈ t ++ [(fingerprint r, (⟨r, total, 1⟩ : VotedEntry))],
          kv.2.entry ∈ S := by
        intro kv hkv
        rcases List.mem_append.mp hkv with h | h
        · exact htS kv h
        · rcases List.mem_singleton.mp h with rfl
          exact hrS
      rw [ih (t ++ [(fingerprint r, (⟨r, total, 1⟩ : VotedEntry))]) hR'S htS'
        (tallyWF_append_new hWF hcf) hR']
      have hbump1 : bumpTally
          (t ++ [(fingerprint r, (⟨r, total, 1⟩ : VotedEntry))]) R' =
          bumpTally t R' ++ [(fingerprint r, (⟨r, total, 1⟩ : VotedEntry))] := by
        rw [bumpTally, List.map_append]
        congr 1
        simp [hrR']
      have hbump2 : bumpTally t (r :: R') = bumpTally t R' := by
        apply List.map_congr_left
        intro kv0 h0
        have hent : kv0.2.entry ≠ r :=
          entry_ne_of_not_containsKey hWF hcf h0
        by_cases hm : kv0.2.entry ∈ R'
        · rw [if_pos hm, if_pos (List.mem_cons_of_mem r hm)]
        · rw [if_neg (by
            rw [List.mem_cons]
            rintro (he | hm2)
            · exact hent he
            · exact hm hm2), if_neg hm]
      have hnews1 : newsTally total
          (t ++ [(fingerprint r, (⟨r, total, 1⟩ : VotedEntry))]) R' =
          newsTally total t R' := by
        rw [newsTally, newsTally]
        congr 1
        apply List.filter_congr
        intro r' hr'
        rw [containsKey_append]
        have : containsKey [(fingerprint r, (⟨r, total, 1⟩ : VotedEntry))]
            (fingerprint r') = false := by
          have hne : fingerprint r ≠ fingerprint r' := by
            intro he
            exact hrR' (hCF _ hrS _ (hR'S r' hr') he ▸ hr')
          simp [containsKey, hne]
        rw [this, Bool.or_false]
      have hnews2 : newsTally total t (r :: R') =
          (fingerprint r, (⟨r, total, 1⟩ : VotedEntry)) ::
            newsTally total t R' := by
        rw [newsTally, newsTally, List.filter_cons, if_pos (by simp [hcf]),
          List.map_cons]
      rw [hbump1, hnews1, hnews2, hbump2]
      simp [List.append_assoc]

theorem countDevs_cons (d : DnsDevice) (D : List DnsDevice) (e : DnsEntry) :
    countDevs (d :: D) e =
      (if memEntry e d.dns_static = true then 1 else 0) + countDevs D e := by
  rw [countDevs, countDevs, List.filter_cons]
  by_cases h : memEntry e d.dns_static = true
  · rw [if_pos h, if_pos h, List.length_cons]
    omega
  · rw [if_neg h, if_neg h]
    omega

theorem mem_bumpTally {t : List (Nat × VotedEntry)} {R : List DnsEntry}
    {kv : Nat × VotedEntry} (h : kv ∈ bumpTally t R) :
    ∃ kv0 ∈ t, kv = (if kv0.2.entry ∈ R then (kv0.1, vote kv0.2) else kv0) := by
  rcases List.mem_map.mp h with ⟨kv0, h0, heq⟩
  exact ⟨kv0, h0, heq.symm⟩

theorem mem_newsTally {total : Nat} {t : List (Nat × VotedEntry)}
    {R : List DnsEntry} {kv : Nat × VotedEntry}
    (h : kv ∈ newsTally total t R) :
    ∃ r ∈ R, containsKey t (fingerprint r) = false ∧
      kv = (fingerprint r, (⟨r, total, 1⟩ : VotedEntry)) := by
  rcases List.mem_map.mp h with ⟨r, hr, heq⟩
  rcases List.mem_filter.mp hr with ⟨hrR, hcond⟩
  refine ⟨r, hrR, ?_, heq.symm⟩
  simpa using hcond

theorem containsKey_news_of_mem {total : Nat} {t : List (Nat × VotedEntry)}
    {R : List DnsEntry} {e : DnsEntry} (he : e ∈ R)
    (hcf : containsKey t (fingerprint e) = false) :
    containsKey (newsTally total t R) (fingerprint e) = true :=
  (containsKey_iff _ _).mpr ⟨(fingerprint e, ⟨e, total, 1⟩),
    List.mem_map.mpr ⟨e, List.mem_filter.mpr ⟨he, by simp [hcf]⟩, rfl⟩, rfl⟩

/-- The running invariant of `_collect_votes`: after folding the devices of
`D` into an arbitrary well-formed tally, every pair either extends a pair
of the initial tally by the number of devices of `D` holding its entry, or
is a fresh pair whose votes count exactly those devices. -/
theorem collectVotes_aux (total : Nat) (D : List DnsDevice)
    (S : List DnsEntry) (hCF : CollisionFree S)
    (hDS : ∀ d ∈ D, ∀ r ∈ d.dns_static, r ∈ S)
    (hND : ∀ d ∈ D, d.dns_static.Nodup) :
    ∀ (t : List (Nat × VotedEntry)), (∀ kv ∈ t, kv.2.entry ∈ S) →
      TallyWF t →
    ∀ kv ∈ D.foldl (fun t d =>
        d.dns_static.foldl (processRecord total) t) t,
      kv.1 = fingerprint kv.2.entry ∧
      ((∃ kv0 ∈ t, kv0.1 = kv.1 ∧ kv0.2.entry = kv.2.entry ∧
          kv0.2.total_voters = kv.2.total_voters ∧
          kv.2.votes = kv0.2.votes + countDevs D kv.2.entry) ∨
       (containsKey t kv.1 = false ∧ kv.2.votes = countDevs D kv.2.entry ∧
          kv.2.total_voters = total)) := by
  induction D with
  | nil =>
    intro t _ hWF kv hkv
    exact ⟨hWF.1 kv hkv,
      Or.inl ⟨kv, hkv, rfl, rfl, rfl, by simp [countDevs]⟩⟩
  | cons d D' ih =>
    intro t htS hWF kv hkv
    have hdS : ∀ r ∈ d.dns_static, r ∈ S :=
      hDS d (List.mem_cons_self d D')
    have hdN : d.dns_static.Nodup := hND d (List.mem_cons_self d D')
    have heq := foldRecords_eq total d.dns_static S hCF t hdS htS hWF hdN
    rw [List.foldl_cons, heq] at hkv
    have hWF' : TallyWF (bumpTally t d.dns_static ++
        newsTally total t d.dns_static) := by
      rw [← heq]
      exact tallyWF_foldRecords total d.dns_static hWF
    have htS' : ∀ kv' ∈ bumpTally t d.dns_static ++
        newsTally total t d.dns_static, kv'.2.entry ∈ S := by
      intro kv' hkv'
      rcases List.mem_append.mp hkv' with h | h
      · rcases mem_bumpTally h with ⟨kv0, h0, rfl⟩
        by_cases hm : kv0.2.entry ∈ d.dns_static
        · rw [if_pos hm]; exact htS kv0 h0
        · rw [if_neg hm]; exact htS kv0 h0
      · rcases mem_newsTally h with ⟨r, hr, _, rfl⟩
        exact hdS r hr
    have hres := ih (fun d' hd' => hDS d' (List.mem_cons_of_mem d hd'))
      (fun d' hd' => hND d' (List.mem_cons_of_mem d hd')) _ htS' hWF' kv hkv
    refine ⟨hres.1, ?_⟩
    rcases hres.2 with ⟨kv0', h0', hk', he', ht', hv'⟩ | ⟨hck', hv', ht'⟩
    · rcases List.mem_append.mp h0' with hb | hn
      · rcases mem_bumpTally hb with ⟨kv0, h0, rfl⟩
        by_cases hm : kv0.2.entry ∈ d.dns_static
        · rw [if_pos hm] at hk' he' ht' hv'
          refine Or.inl ⟨kv0, h0, hk', he', ht', ?_⟩
          rw [countDevs_cons,
            if_pos ((memEntry_iff _ _).mpr (by rw [← he']; exact hm))]
          have : (vote kv0.2).votes = kv0.2.votes + 1 := rfl
          rw [hv', this]
          omega
        · rw [if_neg hm] at hk' he' ht' hv'
          refine Or.inl ⟨kv0, h0, hk', he', ht', ?_⟩
          rw [countDevs_cons, if_neg (by
            rw [memEntry_iff]
            intro hmem
            exact hm (by rw [he']; exact hmem))]
          rw [hv']
          omega
      · rcases mem_newsTally hn with ⟨r, hr, hcf, rfl⟩
        refine Or.inr ⟨by rw [← hk']; exact hcf, ?_, by rw [← ht']⟩
        rw [countDevs_cons,
          if_pos ((memEntry_iff _ _).mpr (by rw [← he']; exact hr))]
        rw [hv']
    · have hckt : containsKey t kv.1 = false := by
        cases hc : containsKey t kv.1
        · rfl
        · have : containsKey (bumpTally t d.dns_static ++
              newsTally total t d.dns_static) kv.1 = true := by
            rw [containsKey_append, containsKey_bump, hc]
            rfl
          rw [this] at hck'
          exact absurd hck' (by simp)
      refine Or.inr ⟨hckt, ?_, ht'⟩
      rw [countDevs_cons, if_neg ?_, hv']
      · omega
      · rw [memEntry_iff]
        intro hmem
        have hfp : kv.1 = fingerprint kv.2.entry := hres.1
        have : containsKey (bumpTally t d.dns_static ++
            newsTally total t d.dns_static) kv.1 = true := by
          rw [containsKey_append]
          cases hc : containsKey t (fingerprint kv.2.entry)
          · rw [hfp]
            rw [containsKey_news_of_mem hmem hc]
            simp
          · rw [containsKey_bump, hfp, hc]
            rfl
        rw [this] at hck'
        exact absurd hck' (by simp)

/-- C5 (amended): provided no two distinct entries across the snapshots
share a fingerprint, every tallied entry's vote count equals the number of
devices whose entry set contains an equal entry (each device counted once,
its set being duplicate-free), its recorded total is the number of
participating devices, and its approval percentage is
votes × 100 / total participants rounded to 2 decimal places. -/
theorem collectVotes_count_spec (devs : List DnsDevice)
    (hND : ∀ d ∈ devs, d.dns_static.Nodup)
    (hCF : CollisionFree (allEntries devs)) :
    ∀ kv ∈ collectVotes devs,
      kv.2.votes = countDevs devs kv.2.entry ∧
      kv.2.total_voters = devs.length ∧
      get_percent kv.2 =
        roundTo2 ((kv.2.votes * 100 : ℚ) / (devs.length : ℚ)) := by
  intro kv hkv
  have hDS : ∀ d ∈ devs, ∀ r ∈ d.dns_static, r ∈ allEntries devs := by
    intro d hd r hr
    rw [allEntries, List.mem_flatten]
    exact ⟨d.dns_static, List.mem_map.mpr ⟨d, hd, rfl⟩, hr⟩
  rw [collectVotes] at hkv
  have hres := collectVotes_aux devs.length devs (allEntries devs) hCF hDS
    hND [] (by simp) ⟨by simp, by simp⟩ kv hkv
  rcases hres.2 with ⟨kv0, h0, _⟩ | ⟨_, hv, ht⟩
  · simp at h0
  · refine ⟨hv, ht, ?_⟩
    rw [get_percent, ht]

/-- C5 witness: entry A on 2 of 3 devices tallies 2 votes out of 3 voters,
approval 66.67%. -/
theorem collectVotes_count_spec_witness :
    (fingerprint entA, (⟨entA, 3, 2⟩ : VotedEntry)) ∈
      collectVotes devsAuthTwoThirds ∧
    ((⟨entA, 3, 2⟩ : VotedEntry)).votes = countDevs devsAuthTwoThirds entA ∧
    countDevs devsAuthTwoThirds entA = 2 ∧
    ((⟨entA, 3, 2⟩ : VotedEntry)).total_voters = devsAuthTwoThirds.length ∧
    get_percent (⟨entA, 3, 2⟩ : VotedEntry) = 6667 / 100 := by
  have hmem : (fingerprint entA, (⟨entA, 3, 2⟩ : VotedEntry)) ∈
      collectVotes devsAuthTwoThirds := by decide
  have h := collectVotes_count_spec devsAuthTwoThirds (by decide)
    (by unfold CollisionFree; decide) _ hmem
  exact ⟨hmem, h.1, by decide, h.2.1,
    by norm_num [get_percent, roundTo2, round_eq]⟩

theorem findMasterAux_map (f : DnsDevice → DnsDevice)
    (hf : ∀ d, (f d).master = d.master)
    (hfix : ∀ d, d.master = true → f d = d) (l : List DnsDevice) :
    ∀ acc, findMasterAux acc (l.map f) = findMasterAux acc l := by
  induction l with
  | nil => intro acc; rfl
  | cons d rest ih =>
    intro acc
    cases acc with
    | some m =>
      by_cases hd : d.master = true
      · simp only [List.map_cons, findMasterAux, hf d, if_pos hd]
      · simp only [List.map_cons, findMasterAux, hf d, if_neg hd]
        exact ih (some m)
    | none =>
      by_cases hd : d.master = true
      · simp only [List.map_cons, findMasterAux, hf d, if_pos hd, hfix d hd]
        exact ih (some d)
      · simp only [List.map_cons, findMasterAux, hf d, if_neg hd]
        exact ih none

theorem update_pending_master (d : DnsDevice) (xs : List DnsEntry) :
    (update_pending_updates d xs).master = d.master :=
  (frame_fields (frameOf_update_pending d xs)).2.1

theorem update_pending_static (d : DnsDevice) (xs : List DnsEntry) :
    (update_pending_updates d xs).dns_static = d.dns_static :=
  (frame_fields (frameOf_update_pending d xs)).2.2

theorem analyzeOnlyNew_idem (devs : List DnsDevice) :
    (analyzeMasterPropagationOnlyNew
        (analyzeMasterPropagationOnlyNew devs).2).2 =
      (analyzeMasterPropagationOnlyNew devs).2 := by
  rcases hfm : findMaster devs with e | m
  · simp [analyzeMasterPropagationOnlyNew, hfm]
  · have hf : ∀ d : DnsDevice,
        ((fun d : DnsDevice => if d.master then d
          else update_pending_updates d
            (difference m.dns_static d.dns_static)) d).master = d.master := by
      intro d
      simp only []
      by_cases h : d.master = true
      · rw [if_pos h]
      · rw [if_neg h, update_pending_master]
    have hfix : ∀ d : DnsDevice, d.master = true →
        (fun d : DnsDevice => if d.master then d
          else update_pending_updates d
            (difference m.dns_static d.dns_static)) d = d := by
      intro d h
      simp only [if_pos h]
    have hfm2 : findMaster (devs.map
        (fun d : DnsDevice => if d.master then d
          else update_pending_updates d
            (difference m.dns_static d.dns_static))) = .ok m := by
      rw [findMaster, findMasterAux_map _ hf hfix devs none, ← findMaster,
        hfm]
    simp only [analyzeMasterPropagationOnlyNew, hfm, hfm2, List.map_map,
      Prod.mk.injEq, true_and]
    apply List.map_congr_left
    intro d _
    simp only [Function.comp_apply]
    by_cases h : d.master = true
    · rw [if_pos h, if_pos h]
    · rw [if_neg h, if_neg (by rw [update_pending_master]; exact h),
        update_pending_static]
      exact update_pending_of_subset (fun x hx =>
        (mem_update_pending _ _ x).mpr (Or.inr hx))

theorem analyzeFullMirror_eq_onlyNew (devs : List DnsDevice) :
    analyzeMasterFullMirror devs = analyzeMasterPropagationOnlyNew devs :=
  rfl

theorem analyzeFullMirror_idem (devs : List DnsDevice) :
    (analyzeMasterFullMirror (analyzeMasterFullMirror devs).2).2 =
      (analyzeMasterFullMirror devs).2 := by
  rw [analyzeFullMirror_eq_onlyNew, analyzeFullMirror_eq_onlyNew]
  exact analyzeOnlyNew_idem devs

/-- A device list is exchange-saturated when every cross-host difference is
already pending on the target device. -/
def ExchangeSat (s : List DnsDevice) : Prop :=
  ∀ i j, i < s.length → j < s.length →
    (devAt s i).host ≠ (devAt s j).host →
    ∀ x ∈ difference (devAt s i).dns_static (devAt s j).dns_static,
      x ∈ (devAt s j).pending_updates

theorem exchangePair_of_sat {s : List DnsDevice} (hsat : ExchangeSat s)
    {i j : Nat} (hi : i < s.length) (hj : j < s.length) :
    exchangePair s i j = s := by
  rw [exchangePair]
  by_cases hh : (devAt s i).host = (devAt s j).host
  · rw [if_pos hh]
  · rw [if_neg hh]
    have h1 : update_pending_updates (devAt s j)
        (difference (devAt s i).dns_static (devAt s j).dns_static) =
        devAt s j :=
      update_pending_of_subset (fun x hx => hsat i j hi hj hh x hx)
    have h2 : update_pending_updates (devAt s i)
        (difference (devAt s j).dns_static (devAt s i).dns_static) =
        devAt s i :=
      update_pending_of_subset (fun x hx =>
        hsat j i hj hi (fun he => hh he.symm) x hx)
    simp only [h1, set_devAt_self, h2]

theorem exchangeInner_of_sat {s : List DnsDevice} (hsat : ExchangeSat s)
    {i : Nat} (hi : i < s.length) (M : List Nat)
    (hM : ∀ j ∈ M, j < s.length) :
    M.foldl (fun t j => exchangePair t i j) s = s := by
  induction M with
  | nil => rfl
  | cons j M' ih =>
    rw [List.foldl_cons,
      exchangePair_of_sat hsat hi (hM j (List.mem_cons_self j M'))]
    exact ih (fun j' hj' => hM j' (List.mem_cons_of_mem j hj'))

theorem exchangeAnalyze_of_sat {s : List DnsDevice}
    (hsat : ExchangeSat s) : exchangeAnalyze s = s := by
  rw [exchangeAnalyze]
  have : ∀ (L : List Nat), (∀ i ∈ L, i < s.length) →
      L.foldl (fun t i => (List.range s.length).foldl
        (fun t2 j => exchangePair t2 i j) t) s = s := by
    intro L
    induction L with
    | nil => intro _; rfl
    | cons i L' ih =>
      intro hL
      rw [List.foldl_cons,
        exchangeInner_of_sat hsat (hL i (List.mem_cons_self i L'))
          (List.range s.length) (fun j hj => List.mem_range.mp hj)]
      exact ih (fun i' hi' => hL i' (List.mem_cons_of_mem i hi'))
  exact this (List.range s.length) (fun i hi => List.mem_range.mp hi)

theorem exchangeAnalyze_idem (devs : List DnsDevice) :
    exchangeAnalyze (exchangeAnalyze devs) = exchangeAnalyze devs := by
  have hframes : framesOf (exchangeAnalyze devs) = framesOf devs :=
    framesOf_exchangeOuter (List.range devs.length) devs.length devs
  have hlen : (exchangeAnalyze devs).length = devs.length :=
    framesOf_length hframes
  have hH : ∀ t, (devAt (exchangeAnalyze devs) t).host =
      (devAt devs t).host :=
    fun t => (frame_fields (framesOf_devAt hframes t)).1
  have hS : ∀ t, (devAt (exchangeAnalyze devs) t).dns_static =
      (devAt devs t).dns_static :=
    fun t => (frame_fields (framesOf_devAt hframes t)).2.2
  apply exchangeAnalyze_of_sat
  intro i j hi hj hh x hx
  rw [hlen] at hi hj
  rw [hS i, hS j, mem_difference] at hx
  have houter := mem_exchangeOuter (n := devs.length)
    (List.range devs.length) (fun a ha => List.mem_range.mp ha)
    (rfl : devs.length = devs.length) j x
  exact houter.mpr (Or.inr ⟨i, List.mem_range.mpr hi,
    Or.inl ⟨hj, by rw [← hH i, ← hH j]; exact hh, hx.1, hx.2⟩⟩)

theorem statics_eq_of_frames {s t : List DnsDevice}
    (h : framesOf s = framesOf t) :
    s.map (fun d => d.dns_static) = t.map (fun d => d.dns_static) := by
  have h1 : ∀ u : List DnsDevice, u.map (fun d => d.dns_static) =
      (framesOf u).map (fun p => p.2.2) := by
    intro u
    rw [framesOf, List.map_map]
    rfl
  rw [h1, h1, h]

theorem collectVotes_congr {s t : List DnsDevice}
    (h : s.map (fun d => d.dns_static) = t.map (fun d => d.dns_static)) :
    collectVotes s = collectVotes t := by
  have hlen : s.length = t.length := by
    have := congrArg List.length h
    simpa using this
  rw [collectVotes, collectVotes, hlen]
  have haux : ∀ (s2 t2 : List DnsDevice),
      s2.map (fun d => d.dns_static) = t2.map (fun d => d.dns_static) →
      ∀ init, s2.foldl (fun acc d =>
          d.dns_static.foldl (processRecord t.length) acc) init =
        t2.foldl (fun acc d =>
          d.dns_static.foldl (processRecord t.length) acc) init := by
    intro s2
    induction s2 with
    | nil =>
      intro t2 heq init
      cases t2 with
      | nil => rfl
      | cons b t2' => simp at heq
    | cons a s2' ih =>
      intro t2 heq init
      cases t2 with
      | nil => simp at heq
      | cons b t2' =>
        simp only [List.map_cons, List.cons.injEq] at heq
        rw [List.foldl_cons, List.foldl_cons, heq.1]
        exact ih t2' heq.2 _
  exact haux s t h []

theorem markEntry_of_pending {e : DnsEntry} {s : List DnsDevice}
    (hp : ∀ k, k < s.length → e ∉ (devAt s k).dns_static →
      e ∈ (devAt s k).pending_updates) : markEntry e s = s := by
  rw [markEntry]
  have : ∀ (M : List Nat), (∀ i ∈ M, i < s.length) →
      M.foldl (fun s2 i =>
        if memEntry e (devAt s2 i).dns_static then s2
        else s2.set i (append_pending_updates (devAt s2 i) e)) s = s := by
    intro M
    induction M with
    | nil => intro _; rfl
    | cons i M' ih =>
      intro hM
      have hi : i < s.length := hM i (List.mem_cons_self i M')
      rw [List.foldl_cons]
      by_cases hc : memEntry e (devAt s i).dns_static = true
      · rw [if_pos hc]
        exact ih (fun i' hi' => hM i' (List.mem_cons_of_mem i hi'))
      · rw [if_neg hc]
        have hnotin : e ∉ (devAt s i).dns_static :=
          fun hmem => hc ((memEntry_iff e _).mpr hmem)
        rw [append_pending_of_mem (hp i hi hnotin), set_devAt_self]
        exact ih (fun i' hi' => hM i' (List.mem_cons_of_mem i hi'))
  exact this (List.range s.length) (fun i hi => List.mem_range.mp hi)

theorem processVoted_of_sat {s : List DnsDevice} {kv : Nat × VotedEntry}
    (h : get_percent kv.2 ≠ 100 → 50 ≤ get_percent kv.2 →
      ∀ k, k < s.length → kv.2.entry ∉ (devAt s k).dns_static →
        kv.2.entry ∈ (devAt s k).pending_updates) :
    processVoted s kv = s := by
  rw [processVoted]
  by_cases h100 : get_percent kv.2 = 100
  · rw [if_pos h100]
  · rw [if_neg h100]
    by_cases h50 : 50 ≤ get_percent kv.2
    · rw [if_pos h50]
      exact markEntry_of_pending (h h100 h50)
    · rw [if_neg h50]

theorem authAnalyze_idem (devs : List DnsDevice) :
    authAnalyze (authAnalyze devs) = authAnalyze devs := by
  have hframes : framesOf (authAnalyze devs) = framesOf devs :=
    framesOf_authFold (collectVotes devs) devs
  have hlen : (authAnalyze devs).length = devs.length :=
    framesOf_length hframes
  have hS : ∀ t, (devAt (authAnalyze devs) t).dns_static =
      (devAt devs t).dns_static :=
    fun t => (frame_fields (framesOf_devAt hframes t)).2.2
  have htally : collectVotes (authAnalyze devs) = collectVotes devs :=
    collectVotes_congr (statics_eq_of_frames hframes)
  show (collectVotes (authAnalyze devs)).foldl processVoted
    (authAnalyze devs) = authAnalyze devs
  rw [htally]
  have hsatfold : ∀ (T : List (Nat × VotedEntry)),
      (∀ kv ∈ T, kv ∈ collectVotes devs) →
      T.foldl processVoted (authAnalyze devs) = authAnalyze devs := by
    intro T
    induction T with
    | nil => intro _; rfl
    | cons kv T' ih =>
      intro hT
      rw [List.foldl_cons, processVoted_of_sat ?_]
      · exact ih (fun kv' hkv' => hT kv' (List.mem_cons_of_mem kv hkv'))
      · intro h100 h50 k hk hns
        rw [hlen] at hk
        rw [hS k] at hns
        exact (mem_authFold (collectVotes devs) devs k kv.2.entry).mpr
          (Or.inr ⟨kv, hT kv (List.mem_cons_self kv T'), h100, h50, hk,
            rfl, hns⟩)
  exact hsatfold (collectVotes devs) (fun kv hkv => hkv)

/-- C10: analyzing a second time over the unchanged snapshots leaves every
pending set exactly as after the first analysis, for all four strategies:
the master strategies (through their error-or-state result), Exchange and
Authoritative. -/
theorem analyze_idempotent (devs : List DnsDevice) :
    (analyzeMasterPropagationOnlyNew
        (analyzeMasterPropagationOnlyNew devs).2).2 =
      (analyzeMasterPropagationOnlyNew devs).2 ∧
    (analyzeMasterFullMirror (analyzeMasterFullMirror devs).2).2 =
      (analyzeMasterFullMirror devs).2 ∧
    exchangeAnalyze (exchangeAnalyze devs) = exchangeAnalyze devs ∧
    authAnalyze (authAnalyze devs) = authAnalyze devs :=
  ⟨analyzeOnlyNew_idem devs, analyzeFullMirror_idem devs,
    exchangeAnalyze_idem devs, authAnalyze_idem devs⟩

end MikrotikDnsSync
